import Mathlib

/-!
# Master-worker framework (`lab2and3/api.c`)

A shallow embedding of the scheduling core of `api.c`:

* `random_fail` / `F_ISend` : the fault injector wrapped around the workers' result send;
* `worker_body_2` / `worker_body_1` : one turn of the worker loops of `MW_Run_2` and `MW_Run_1`;
* `step2` / `run2` : the master of the dynamic scheduler `MW_Run_2`, one program point at a time;
* `distribute_iter` / `distribute` / `collect` / `MW_Run_1_master` : the master of the static
  scheduler `MW_Run_1`;
* `MW_Run` : the dispatcher.

Conventions.  C `int`s are embedded as `Int` (message tags, liveness flags) or `Nat` (ranks,
loop counters that only count up from a non-negative start), without a 32-bit limit.  The
counters bounded by the number of chunks or of messages cannot reach that limit before memory
for the work pool runs out.  The one variable that can is `we_have_live_workers` of
`MW_Run_1`, which grows by up to `sz - 1` per iteration: it is kept in the range of a 32-bit
`int` by `wrap_int32`.  The `float` arithmetic of `random_fail` is that of IEEE 754 binary32
(`float_round`), with the expression of line 43 evaluated in `float`.  A NULL-terminated array is a
`List`, reading the terminator is `none`.  `assert` is the macro of `<assert.h>` with `NDEBUG`
undefined: a false condition ends the process.  What the environment decides (the value of
`rand()`, which pending result an `MPI_Recv` with `MPI_ANY_SOURCE` returns, the clock) is an
explicit argument.  Constants that live in `api.h` (`WORK_TAG`, `RESULT_TAG`) and the libc
constant `RAND_MAX` are parameters.
-/

namespace MW

/-! ## Constants of `api.c` -/

/-- Macro `MASTER`: the rank of the master process. -/
def MASTER : Nat := 0

/-- Macro `DONE_TAG`: the tag with which the master tells a worker to stop. -/
def DONE_TAG : Int := -1

/-- Macro `PROB_FAIL`, defined as the integer literal `1`. -/
def PROB_FAIL : ℚ := 1

/-! ## Fault injector -/

/-- How a call of `random_fail` ends: it returns an `int`, or it calls `exit(0)`. -/
inductive FailDraw where
  | ret (v : Int)
  | exit_program
  deriving DecidableEq, Repr

/-- Rounding of a rational to the nearest integer, a tie going to the even one. -/
def round_half_even (x : ℚ) : Int :=
  if Int.fract x < 1 / 2 then ⌊x⌋
  else if 1 / 2 < Int.fract x then ⌊x⌋ + 1
  else if ⌊x⌋ % 2 = 0 then ⌊x⌋ else ⌊x⌋ + 1

/-- The C `float` nearest to the non-negative value `q`: IEEE 754 binary32, 24 significant bits,
round to nearest, ties to even.  For `q > 0` with `2 ^ e ≤ q < 2 ^ (e + 1)` the result is the
multiple of `2 ^ (e - 23)` nearest to `q`.  The exponent range of the format is not
represented: the values that occur in `random_fail` lie between `2 ^ (-31)` and `2 ^ 31`
(`rand_float_normal` below), far inside it. -/
def float_round (q : ℚ) : ℚ :=
  if q ≤ 0 then 0
  else
    let ulp : ℚ := (2 : ℚ) ^ (Int.log 2 q - 23)
    (round_half_even (q / ulp) : ℚ) * ulp

/-- The value of `(float)rand()/(float)(RAND_MAX)` of api.c 43 when `rand()` returns `r`: both
conversions from `int` round to `float`, and so does the division of the two `float`s. -/
def rand_float (RAND_MAX r : Nat) : ℚ :=
  float_round (float_round (r : ℚ) / float_round (RAND_MAX : ℚ))

/-- Function `random_fail` (api.c 37-57).  `r` is the value of `rand()`, `0 ≤ r ≤ RAND_MAX`;
`prob_fail` stands for the value of the macro `PROB_FAIL`.  The comparisons of a `float` with
the threshold and with `1.0` are exact in C, so they are comparisons of rationals here. -/
def random_fail (RAND_MAX : Nat) (prob_fail : ℚ) (r : Nat) : FailDraw :=
  if rand_float RAND_MAX r ≤ prob_fail then
    FailDraw.ret 1
  else if rand_float RAND_MAX r > prob_fail ∧ rand_float RAND_MAX r ≤ 1 then
    FailDraw.ret 0
  else
    FailDraw.exit_program

/-- What one turn of a worker loop did. -/
inductive WorkerStep (β : Type) where
  /-- callback `do_one_work` ran, `F_ISend` handed the result to `MPI_Isend` with this tag; loop goes on -/
  | sent_result (tag : Int) (result : β)
  /-- callback `do_one_work` ran, `F_ISend` was called with this tag and ended the process -/
  | crashed_on_send (tag : Int) (result : β)
  /-- the loop variable was set so that the loop ends -/
  | terminated
  /-- only the "unknown tag" line was printed; loop goes on -/
  | ignored
  deriving DecidableEq, Repr

/-- Function `F_ISend` (api.c 59-69): `if (random_fail()) { ...; exit(0); } else return MPI_Isend(...)`.
`draw` is how the call of `random_fail()` ended. -/
def F_ISend {β : Type} (draw : FailDraw) (tag : Int) (result : β) : WorkerStep β :=
  match draw with
  | FailDraw.ret v => if v ≠ 0 then WorkerStep.crashed_on_send tag result
                      else WorkerStep.sent_result tag result
  | FailDraw.exit_program => WorkerStep.crashed_on_send tag result

/-! ## Worker loops -/

/-- Body of the worker loop of `MW_Run_2` (api.c 194-230) for one received message with tag
`tag` and payload `work_chunk`. -/
def worker_body_2 {α β : Type} (WORK_TAG RESULT_TAG : Int) (do_one_work : α → β)
    (draw : FailDraw) (tag : Int) (work_chunk : α) : WorkerStep β :=
  if tag = WORK_TAG then
    F_ISend draw RESULT_TAG (do_one_work work_chunk)
  else if tag = DONE_TAG then
    WorkerStep.terminated
  else
    WorkerStep.ignored

/-- Body of the worker loop of `MW_Run_1` (api.c 407-437) for one received message. -/
def worker_body_1 {α β : Type} (do_one_work : α → β)
    (draw : FailDraw) (tag : Int) (work_chunk : α) : WorkerStep β :=
  if tag ≥ 0 then
    let work_chunk_index := tag
    F_ISend draw work_chunk_index (do_one_work work_chunk)
  else
    WorkerStep.terminated

/-- The callback `do_one_work` was invoked in this turn. -/
def WorkerStep.computed {β : Type} : WorkerStep β → Bool
  | WorkerStep.sent_result _ _ => true
  | WorkerStep.crashed_on_send _ _ => true
  | _ => false

/-- The tag the worker passed to `F_ISend` in this turn, if it called it. -/
def WorkerStep.isend_tag {β : Type} : WorkerStep β → Option Int
  | WorkerStep.sent_result t _ => some t
  | WorkerStep.crashed_on_send t _ => some t
  | _ => none

/-- One `MPI_Send` of a work chunk by the master: destination rank, message tag, and the index
in `work_chunks` of the chunk sent. -/
structure Sent where
  dest : Nat
  tag : Int
  chunk : Nat
  deriving DecidableEq, Repr

/-- A work chunk that was sent to `worker` and whose result the master has not received.
`reply` is the result message the worker sends for it: tag and payload (`none` when the worker
sends none). -/
structure Pending (β : Type) where
  worker : Nat
  chunk : Nat
  reply : Option (Int × β)

/-- The result message a worker turn puts on the wire. -/
def WorkerStep.reply {β : Type} : WorkerStep β → Option (Int × β)
  | WorkerStep.sent_result t r => some (t, r)
  | _ => none

/-- The payload with which a pending result completes an `MPI_Recv` whose tag argument is
`want` (`none` is `MPI_ANY_TAG`); `none` when it cannot complete it. -/
def Pending.result_for {β : Type} (want : Option Int) (m : Pending β) : Option β :=
  match m.reply with
  | none => none
  | some (t, r) =>
    match want with
    | none => some r
    | some w => if t = w then some r else none

/-- Removes the first entry on which `f` is defined, and gives it with the value of `f`. -/
def take_first {γ δ : Type} (f : γ → Option δ) : List γ → Option (γ × δ × List γ)
  | [] => none
  | m :: ms =>
    match f m with
    | some r => some (m, r, ms)
    | none =>
      match take_first f ms with
      | none => none
      | some (x, r, rest) => some (x, r, m :: rest)

/-- An `MPI_Recv` from `MPI_ANY_SOURCE` with tag argument `want`: among the pending results
that match, the environment's `choice` names a sender, and the oldest matching message of that
sender is received (messages of one sender do not overtake).  `none`: nothing matches, the
receive does not return. -/
def deliver {β : Type} (want : Option Int) (choice : Nat) (pending : List (Pending β)) :
    Option (Pending β × β × List (Pending β)) :=
  let candidates := pending.filter (fun m => (m.result_for want).isSome)
  match candidates[choice % candidates.length]? with
  | none => none
  | some c => take_first (fun m => if m.worker = c.worker then m.result_for want else none) pending

/-- What `api.h` and the user's callbacks supply to a run: the two tags, the pool returned by
`create_work_pool` (the entries before the NULL terminator), and `do_one_work`. -/
structure Api (α β : Type) where
  WORK_TAG : Int
  RESULT_TAG : Int
  work_chunks : List α
  do_one_work : α → β

/-! ## Master of the dynamic scheduler `MW_Run_2`

The master is run one program point at a time.  Workers are not run as separate processes: when
the master sends a chunk, the entry added to `pending` carries the result message that the
worker loop (`worker_body_2`, with `random_fail()` returning 0) sends for it, and an `MPI_Recv`
takes one of these.  A worker that stops answering corresponds to its entry never being chosen,
so the master states reached with failing workers are among those reached here. -/

/-- Program points of the master branch of `MW_Run_2`. -/
inductive Pc2 where
  /-- head of the `for` loop of line 99, with the value of `process_num` -/
  | batch (process_num : Nat)
  /-- head of the `while` loop of line 124 -/
  | wait
  /-- line 141, after the `MPI_Recv`; `source` is `status.MPI_SOURCE` -/
  | reply (source : Nat)
  /-- past the assertion of line 156 -/
  | exited
  /-- an `assert` of this line was false -/
  | assert_failed (line : Nat)
  /-- inside an `MPI_Recv` that no message will complete -/
  | blocked
  deriving DecidableEq, Repr

/-- State of the master of `MW_Run_2`: its local variables, the log of its work sends, and the
chunks sent and not yet answered. -/
structure Master2 (β : Type) where
  pc : Pc2
  current_work_chunk : Nat
  num_results_received : Nat
  result_array : List β
  num_msgs : Nat
  sent : List Sent
  pending : List (Pending β)

/-- The `MPI_Send(work_chunk, ..., process, WORK_TAG, ...)` of lines 105 and 151 together with
the increments of `current_work_chunk` and `num_msgs`. -/
def send_work_2 {α β : Type} (api : Api α β) (process : Nat) (work_chunk : α)
    (s : Master2 β) : Master2 β :=
  { s with
    sent := s.sent ++ [Sent.mk process api.WORK_TAG s.current_work_chunk]
    pending := s.pending ++
      [Pending.mk process s.current_work_chunk
        (worker_body_2 api.WORK_TAG api.RESULT_TAG api.do_one_work (FailDraw.ret 0)
          api.WORK_TAG work_chunk).reply]
    current_work_chunk := s.current_work_chunk + 1
    num_msgs := s.num_msgs + 1 }

/-- One step of the master of `MW_Run_2` (api.c 96-156).  `sz` is the communicator size,
`choice` is the environment's pick for an `MPI_Recv`. -/
def step2 {α β : Type} (api : Api α β) (sz : Nat) (choice : Nat) (s : Master2 β) : Master2 β :=
  match s.pc with
  | Pc2.batch process_num =>
    if process_num < sz then
      match api.work_chunks[s.current_work_chunk]? with
      | some work_chunk =>
        { send_work_2 api process_num work_chunk s with pc := Pc2.batch (process_num + 1) }
      | none => { s with pc := Pc2.batch (sz + 1) }
    else { s with pc := Pc2.wait }
  | Pc2.wait =>
    if s.num_results_received ≠ api.work_chunks.length then
      match deliver (some api.RESULT_TAG) choice s.pending with
      | none => { s with pc := Pc2.blocked }
      | some (m, result, rest) =>
        { s with
          pc := Pc2.reply m.worker
          result_array := s.result_array ++ [result]
          num_results_received := s.num_results_received + 1
          num_msgs := s.num_msgs + 1
          pending := rest }
    else if s.current_work_chunk = api.work_chunks.length then { s with pc := Pc2.exited }
    else { s with pc := Pc2.assert_failed 156 }
  | Pc2.reply process =>
    if s.current_work_chunk < api.work_chunks.length then
      match api.work_chunks[s.current_work_chunk]? with
      | some work_chunk => { send_work_2 api process work_chunk s with pc := Pc2.wait }
      | none =>
        { s with current_work_chunk := s.current_work_chunk + 1, pc := Pc2.assert_failed 148 }
    else { s with pc := Pc2.wait }
  | Pc2.exited => s
  | Pc2.assert_failed _ => s
  | Pc2.blocked => s

/-- The master of `MW_Run_2` on entering line 98. -/
def init2 {β : Type} : Master2 β :=
  { pc := Pc2.batch 1, current_work_chunk := 0, num_results_received := 0, result_array := [],
    num_msgs := 0, sent := [], pending := [] }

/-- The master of `MW_Run_2` after `t` steps; `arrival t` is the environment's pick at step
`t`. -/
def run2 {α β : Type} (api : Api α β) (sz : Nat) (arrival : Nat → Nat) : Nat → Master2 β
  | 0 => init2
  | t + 1 => step2 api sz (arrival t) (run2 api sz arrival t)

/-- Number of chunks sent to `worker` and not yet answered. -/
def outstanding {β : Type} (pending : List (Pending β)) (worker : Nat) : Nat :=
  (pending.filter (fun m => m.worker = worker)).length

/-! ## Master of the static scheduler `MW_Run_1`

The master branch of `MW_Run_1` is embedded statement by statement.  Three places of it are not
C that a compiler accepts, and are embedded as follows.

* Lines 290-305 (`if (receive_status says we have received a message) ...`): whether a message
  has been received at iteration `i` is the environment's `message_received i`; a received
  message is one of the pending results (the `MPI_IRecv` takes any source and any tag), and it
  is stored in the array indexed by `result_index`.  That array is not the one of line 353,
  which is allocated after the loop and is the one handed to `report_results`.
* Line 314 calls `check_worker_statuses`, which is defined nowhere: it is the parameter
  `check_worker_statuses`, any function of the iteration and the table.  The comparison of
  line 313 is the parameter `check_due`.
* Line 331 reads `worker_status[process_num]` with `process_num` up to `sz - 1`, while the table
  has `sz - 1` entries, indices `0 .. sz - 2`: the read of index `sz - 1` is outside the table.
  What such a read yields is the parameter `beyond`.
-/

/-- What surrounds a run of the master of `MW_Run_1`. -/
structure Env1 (α β : Type) where
  /-- the tags of `api.h`, the work pool and `do_one_work` -/
  api : Api α β
  /-- communicator size -/
  sz : Nat
  /-- the word a read past the end of `worker_status` yields -/
  beyond : Int
  /-- at iteration `i`: `none`, no message has been received; `some k`, one has, `k` picks it -/
  message_received : Nat → Option Nat
  /-- at iteration `i`: `(cur_time - last_check_time) >= CHECK_INTERVAL` -/
  check_due : Nat → Bool
  /-- the function called at line 314 -/
  check_worker_statuses : Nat → List Int → List Int
  /-- the pick for the `j`-th `MPI_Recv` of the collection loop -/
  arrival : Nat → Nat

/-- Local variables of the master of `MW_Run_1` during the distribution loop, the log of its
work sends, the chunks sent and not yet answered, and the results stored by lines 290-305. -/
structure Master1 (β : Type) where
  i : Nat
  process_num : Nat
  we_have_live_workers : Int
  worker_status : List Int
  result_index : Nat
  polled : List β
  num_msgs : Nat
  sent : List Sent
  pending : List (Pending β)

/-- Where the distribution loop of `MW_Run_1` stands. -/
inductive Dist (β : Type) where
  /-- at the loop head (line 287) -/
  | at_head (s : Master1 β)
  /-- the branch of lines 321-325 was taken: `MPI_Finalize(); exit(0);` -/
  | all_workers_dead (s : Master1 β)
  /-- the `while` of line 331 does not end -/
  | select_spins (s : Master1 β)

/-- The master of `MW_Run_1` on reaching the loop of line 287: lines 271-286. -/
def init1 {α β : Type} (env : Env1 α β) : Master1 β :=
  { i := 0, process_num := 1, we_have_live_workers := 0,
    worker_status := List.replicate (env.sz - 1) 1,
    result_index := 0, polled := [], num_msgs := 0, sent := [], pending := [] }

/-- Lines 290-305. -/
def poll_block {α β : Type} (env : Env1 α β) (s : Master1 β) : Master1 β :=
  match env.message_received s.i with
  | none => s
  | some k =>
    match deliver none k s.pending with
    | none => s
    | some (_, result, rest) =>
      { s with polled := s.polled ++ [result], result_index := s.result_index + 1,
               pending := rest }

/-- Lines 312-315. -/
def liveness_check {α β : Type} (env : Env1 α β) (s : Master1 β) : Master1 β :=
  if env.check_due s.i then
    { s with worker_status := env.check_worker_statuses s.i s.worker_status }
  else s

/-- The read `worker_status[k]`. -/
def read_status {α β : Type} (env : Env1 α β) (worker_status : List Int) (k : Nat) : Int :=
  worker_status.getD k env.beyond

/-- The value a 32-bit two's-complement `int` holds when the exact result of an addition is
`x`: `x` itself inside `-2 ^ 31 .. 2 ^ 31 - 1`, and `x` reduced modulo `2 ^ 32` into that range
outside it (what the usual compilers produce where C leaves the overflow undefined). -/
def wrap_int32 (x : Int) : Int := (x + 2147483648) % 4294967296 - 2147483648

/-- Lines 318-320: `for(j = 0; j < sz - 1; j++) we_have_live_workers += worker_status[j];`, each
addition in the 32-bit `int` `we_have_live_workers`. -/
def count_live {α β : Type} (env : Env1 α β) (s : Master1 β) : Master1 β :=
  let total := List.foldl (fun acc j => wrap_int32 (acc + read_status env s.worker_status j))
    s.we_have_live_workers (List.range (env.sz - 1))
  { s with we_have_live_workers := total }

/-- Lines 331-335: `while (worker_status[process_num] == 0) if (++process_num == sz)
process_num = 1;`, run for at most `fuel` tests of the loop condition.  `none`: the condition
still held at the last of them. -/
def select {α β : Type} (env : Env1 α β) (worker_status : List Int) : Nat → Nat → Option Nat
  | 0, _ => none
  | fuel + 1, process_num =>
    if read_status env worker_status process_num = 0 then
      select env worker_status fuel (if process_num + 1 = env.sz then 1 else process_num + 1)
    else some process_num

/-- Lines 337-348: the send of chunk `i` with tag `i` to `process_num`, and the advance of
`process_num` and `i`.  The entry added to `pending` carries the result message that the worker
loop of `MW_Run_1` sends for this message when `random_fail()` returns 0. -/
def send_chunk {α β : Type} (env : Env1 α β) (process_num : Nat) (work_chunk : α)
    (s : Master1 β) : Master1 β :=
  { s with
    sent := s.sent ++ [Sent.mk process_num (s.i : Int) s.i]
    pending := s.pending ++
      [Pending.mk process_num s.i
        (worker_body_1 env.api.do_one_work (FailDraw.ret 0) (s.i : Int) work_chunk).reply]
    process_num := if process_num + 1 = env.sz then 1 else process_num + 1
    num_msgs := s.num_msgs + 1
    i := s.i + 1 }

/-- Lines 289-320: what an iteration does before the test of line 321. -/
def before_check {α β : Type} (env : Env1 α β) (s : Master1 β) : Master1 β :=
  count_live env (liveness_check env (poll_block env s))

/-- One iteration of the loop of line 287 for the chunk `work_chunk = work_chunks[i]`. -/
def distribute_body {α β : Type} (env : Env1 α β) (work_chunk : α) (s : Master1 β) : Dist β :=
  let s1 := before_check env s
  if s1.we_have_live_workers = 0 then Dist.all_workers_dead s1
  else
    match select env s1.worker_status (env.sz + 1) s1.process_num with
    | none => Dist.select_spins s1
    | some process_num => Dist.at_head (send_chunk env process_num work_chunk s1)

/-- The loop of line 287, for at most `n` iterations. -/
def distribute {α β : Type} (env : Env1 α β) : Nat → Master1 β → Dist β
  | 0, s => Dist.at_head s
  | n + 1, s =>
    match env.api.work_chunks[s.i]? with
    | none => Dist.at_head s
    | some work_chunk =>
      match distribute_body env work_chunk s with
      | Dist.at_head s1 => distribute env n s1
      | d => d

/-- Where the collection loop of `MW_Run_1` (lines 359-373) stands. -/
inductive Coll (β : Type) where
  /-- at the loop head with this `j` and this content of `result_array[0 .. j-1]` -/
  | at_head (j : Nat) (result_array : List β) (s : Master1 β)
  /-- inside the `MPI_Recv` of line 370, which no pending result completes -/
  | recv_blocks (j : Nat) (result_array : List β) (s : Master1 β)

/-- The loop of lines 360-373, for at most `n` iterations: `MPI_Recv(..., MPI_ANY_SOURCE,
RESULT_TAG, ...)`, then `result_array[j] = result`. -/
def collect {α β : Type} (env : Env1 α β) : Nat → Nat → List β → Master1 β → Coll β
  | 0, j, result_array, s => Coll.at_head j result_array s
  | n + 1, j, result_array, s =>
    if j < s.i then
      match deliver (some env.api.RESULT_TAG) (env.arrival j) s.pending with
      | none => Coll.recv_blocks j result_array s
      | some (_, result, rest) =>
        collect env n (j + 1) (result_array ++ [result])
          { s with pending := rest, num_msgs := s.num_msgs + 1 }
    else Coll.at_head j result_array s

/-- How the master branch of `MW_Run_1` ends. -/
inductive Outcome1 (β : Type) where
  /-- the callback `report_results(i, result_array)` was called with these arguments -/
  | reported (i : Nat) (result_array : List β)
  /-- the master left at lines 321-325 -/
  | all_workers_dead
  /-- the master stays in the loop of line 331 -/
  | select_spins
  /-- the master stays in the `MPI_Recv` of line 370 -/
  | recv_blocks
  deriving DecidableEq, Repr

/-- The master branch of `MW_Run_1` up to the call of `report_results` (lines 252-377). -/
def MW_Run_1_master {α β : Type} (env : Env1 α β) : Outcome1 β :=
  match distribute env env.api.work_chunks.length (init1 env) with
  | Dist.all_workers_dead _ => Outcome1.all_workers_dead
  | Dist.select_spins _ => Outcome1.select_spins
  | Dist.at_head s =>
    match collect env s.i 0 [] s with
    | Coll.recv_blocks _ _ _ => Outcome1.recv_blocks
    | Coll.at_head _ result_array _ => Outcome1.reported s.i result_array

/-! ## Dispatcher -/

/-- Which scheduler a call of `MW_Run` ran, or that the assertion ended the process. -/
inductive Dispatch where
  | assertion_failed
  | ran_MW_Run_1
  | ran_MW_Run_2
  deriving DecidableEq, Repr

/-- Function `MW_Run` (api.c 447-454): `assert(style == 1 || style == 2)`, then the branch on
`style == 1`. -/
def MW_Run (style : Int) : Dispatch :=
  if style = 1 ∨ style = 2 then
    if style = 1 then Dispatch.ran_MW_Run_1 else Dispatch.ran_MW_Run_2
  else Dispatch.assertion_failed

/-- The state carried by a position of the distribution loop. -/
def Dist.state {β : Type} : Dist β → Master1 β
  | Dist.at_head s => s
  | Dist.all_workers_dead s => s
  | Dist.select_spins s => s

/-! ## Invariants of the master of `MW_Run_2` -/

/-- What holds of the variables of the master of `MW_Run_2` at every program point:
`current_work_chunk` chunks have been sent, chunk `k` by the `k`-th send, each to a worker rank;
no worker has two unanswered chunks; the results stored together with the results still to
come are those of the chunks sent; and the counters agree with the lists. -/
structure Core2 {α β : Type} (api : Api α β) (sz cur recvd : Nat) (result_array : List β)
    (sent : List Sent) (pending : List (Pending β)) : Prop where
  cur_le : cur ≤ api.work_chunks.length
  sent_chunks : sent.map Sent.chunk = List.range cur
  sent_dest : ∀ m ∈ sent, 1 ≤ m.dest ∧ m.dest < sz
  pend_worker : ∀ m ∈ pending, 1 ≤ m.worker ∧ m.worker < sz
  nodup : (pending.map Pending.worker).Nodup
  replies : (result_array.map some ++
      pending.map (Pending.result_for (some api.RESULT_TAG))).Perm
    ((api.work_chunks.take cur).map (fun w => some (api.do_one_work w)))
  len : result_array.length = recvd
  count : recvd + pending.length = cur

/-- What holds in addition at each program point of the master of `MW_Run_2`. -/
def PcOk2 {α β : Type} (api : Api α β) (sz : Nat) (s : Master2 β) : Prop :=
  match s.pc with
  | Pc2.batch p =>
    1 ≤ p ∧ s.num_results_received = 0 ∧ (∀ m ∈ s.pending, m.worker < p) ∧
      (s.current_work_chunk < api.work_chunks.length → s.current_work_chunk + 1 = p)
  | Pc2.wait => True
  | Pc2.reply source =>
    1 ≤ source ∧ source < sz ∧ source ∉ s.pending.map Pending.worker
  | Pc2.exited =>
    s.current_work_chunk = api.work_chunks.length ∧
      s.num_results_received = api.work_chunks.length
  | Pc2.assert_failed _ => False
  | Pc2.blocked => True

/-- Invariant of the master of `MW_Run_2`. -/
def Inv2 {α β : Type} (api : Api α β) (sz : Nat) (s : Master2 β) : Prop :=
  Core2 api sz s.current_work_chunk s.num_results_received s.result_array s.sent s.pending ∧
    PcOk2 api sz s

/-- With at least one worker, the master of `MW_Run_2` never waits for a result that cannot
come: at the loop head some chunk is unanswered as long as chunks remain to be sent. -/
def Live2 {α β : Type} (api : Api α β) (s : Master2 β) : Prop :=
  match s.pc with
  | Pc2.wait => s.current_work_chunk < api.work_chunks.length → s.pending ≠ []
  | Pc2.blocked => False
  | _ => True

/-- A bound on the number of steps the master of `MW_Run_2` still takes before `exited`. -/
def measure2 {α β : Type} (api : Api α β) (sz : Nat) (s : Master2 β) : Nat :=
  match s.pc with
  | Pc2.batch p => 2 * api.work_chunks.length + (sz + 2 - p) + 2
  | Pc2.wait => 2 * (api.work_chunks.length - s.num_results_received) + 1
  | Pc2.reply _ => 2 * (api.work_chunks.length - s.num_results_received) + 2
  | _ => 0

/-- A pool of three chunks with `do_one_work` multiplying by ten, used to instantiate the
statements about `MW_Run_2`. -/
def api_demo : Api Nat Nat :=
  { WORK_TAG := 1, RESULT_TAG := 2, work_chunks := [0, 1, 2], do_one_work := fun x => x * 10 }

/-- The state carried by a position of the collection loop. -/
def Coll.state {β : Type} : Coll β → Master1 β
  | Coll.at_head _ _ s => s
  | Coll.recv_blocks _ _ s => s

/-- What holds of the variables of the master of `MW_Run_1` throughout the distribution loop:
`i` chunks have been sent, chunk `k` by the `k`-th send and with tag `k`; the unanswered chunks
are among the chunks sent, in the order sent; and the result message a worker sends for chunk
`k` carries the tag `k`. -/
structure Inv1 {α β : Type} (env : Env1 α β) (s : Master1 β) : Prop where
  i_le : s.i ≤ env.api.work_chunks.length
  sent_chunks : s.sent.map Sent.chunk = List.range s.i
  sent_tags : ∀ m ∈ s.sent, m.tag = (m.chunk : Int)
  pend_sub : (s.pending.map (fun p => (p.worker, p.chunk))).Sublist
    (s.sent.map (fun m => (m.dest, m.chunk)))
  pend_reply : ∀ p ∈ s.pending, ∃ r, p.reply = some ((p.chunk : Int), r)

/-- An environment of `MW_Run_1` in which no message is received during distribution and the
liveness table is never changed. -/
def quiet_env (sz : Nat) (RESULT_TAG beyond : Int) (arrival : Nat → Nat)
    (work_chunks : List Nat) : Env1 Nat Nat :=
  { api := { WORK_TAG := 1, RESULT_TAG := RESULT_TAG, work_chunks := work_chunks,
             do_one_work := fun x => x * 10 },
    sz := sz, beyond := beyond, message_received := fun _ => none,
    check_due := fun _ => false, check_worker_statuses := fun _ ws => ws,
    arrival := arrival }

/-- An environment of `MW_Run_1` with two workers and two chunks in which the check of line 314
runs at iteration 1 and marks every worker dead. -/
def env_all_die (beyond : Int) : Env1 Nat Nat :=
  { api := { WORK_TAG := 1, RESULT_TAG := 0, work_chunks := [0, 1],
             do_one_work := fun x => x * 10 },
    sz := 3, beyond := beyond, message_received := fun _ => none,
    check_due := fun i => decide (i = 1),
    check_worker_statuses := fun _ ws => ws.map (fun _ => 0),
    arrival := fun _ => 0 }

/-- An environment of `MW_Run_1` with two workers and one chunk in which the check of line 314
runs at iteration 0 and marks worker 1 (entry 0 of the table) dead. -/
def env_first_dies : Env1 Nat Nat :=
  { api := { WORK_TAG := 1, RESULT_TAG := 0, work_chunks := [0],
             do_one_work := fun x => x * 10 },
    sz := 3, beyond := 1, message_received := fun _ => none,
    check_due := fun i => decide (i = 0),
    check_worker_statuses := fun _ _ => [0, 1],
    arrival := fun _ => 0 }

/-- What holds of the master of `MW_Run_1` during the distribution loop while no worker has
been marked dead: the table is as initialised, the rotation pointer is `1 + (i mod W)` with
`W = sz - 1`, and chunk `k` was sent to worker `1 + (k mod W)`. -/
structure RoundRobin {α β : Type} (env : Env1 α β) (s : Master1 β) : Prop where
  table : s.worker_status = List.replicate (env.sz - 1) 1
  pointer : s.process_num = 1 + s.i % (env.sz - 1)
  dest : ∀ m ∈ s.sent, m.dest = 1 + m.chunk % (env.sz - 1)

/-- Three chunks for two workers, nothing received during distribution, no worker marked
dead, a 1 in the word past the liveness table. -/
def env_three_chunks : Env1 Nat Nat := quiet_env 3 2 1 (fun _ => 0) [0, 1, 2]

/-! ## Dispatcher and fault injector: properties -/

/-- C3: `MW_Run` runs `MW_Run_1`, and only it, exactly for `style = 1`; it runs `MW_Run_2`, and
only it, exactly for `style = 2`; for every other `style` the assertion ends the process before
either scheduler is entered. -/
theorem MW_Run_dispatch (style : Int) :
    (MW_Run style = Dispatch.ran_MW_Run_1 ↔ style = 1) ∧
    (MW_Run style = Dispatch.ran_MW_Run_2 ↔ style = 2) ∧
    (MW_Run style = Dispatch.assertion_failed ↔ (style ≠ 1 ∧ style ≠ 2)) := by
  unfold MW_Run
  by_cases h1 : style = 1
  · subst h1; simp
  · by_cases h2 : style = 2
    · subst h2; simp
    · simp [h1, h2]

/-! ### The `float` draw of `random_fail` -/

theorem rhe_cases (x : ℚ) :
    round_half_even x = ⌊x⌋ ∨ (round_half_even x = ⌊x⌋ + 1 ∧ 1 / 2 ≤ Int.fract x) := by
  unfold round_half_even
  by_cases h1 : Int.fract x < 1 / 2
  · left; rw [if_pos h1]
  · rw [if_neg h1]
    by_cases h2 : 1 / 2 < Int.fract x
    · right; rw [if_pos h2]; exact ⟨rfl, not_lt.mp h1⟩
    · rw [if_neg h2]
      by_cases h3 : ⌊x⌋ % 2 = 0
      · left; rw [if_pos h3]
      · right; rw [if_neg h3]; exact ⟨rfl, not_lt.mp h1⟩

theorem floor_le_rhe (x : ℚ) : ⌊x⌋ ≤ round_half_even x := by
  rcases rhe_cases x with h | ⟨h, _⟩ <;> rw [h]
  omega

theorem rhe_le_of_le_int (x : ℚ) (N : Int) (h : x ≤ (N : ℚ)) : round_half_even x ≤ N := by
  have hfl : ⌊x⌋ ≤ N := by
    have : (⌊x⌋ : ℚ) ≤ N := le_trans (Int.floor_le x) h
    exact_mod_cast this
  rcases rhe_cases x with h1 | ⟨h1, h2⟩
  · rw [h1]; exact hfl
  · rw [h1]
    have hlt : (⌊x⌋ : ℚ) < N := by
      have := Int.self_sub_floor x
      have : (⌊x⌋ : ℚ) < x := by linarith
      exact lt_of_lt_of_le this h
    have : ⌊x⌋ < N := by exact_mod_cast hlt
    omega

theorem le_rhe_of_int_le (x : ℚ) (N : Int) (h : (N : ℚ) ≤ x) : N ≤ round_half_even x :=
  le_trans (Int.le_floor.mpr h) (floor_le_rhe x)

theorem rhe_int (N : Int) : round_half_even (N : ℚ) = N :=
  le_antisymm (rhe_le_of_le_int _ N (le_refl _)) (le_rhe_of_int_le _ N (le_refl _))

theorem rhe_mono (x y : ℚ) (h : x ≤ y) : round_half_even x ≤ round_half_even y := by
  have hfl : ⌊x⌋ ≤ ⌊y⌋ := Int.floor_mono h
  rcases lt_or_eq_of_le hfl with hlt | heq
  · have h1 : round_half_even x ≤ ⌊x⌋ + 1 := by
      rcases rhe_cases x with h | ⟨h, _⟩ <;> rw [h]
      omega
    have h2 := floor_le_rhe y
    omega
  · have hfr : Int.fract x ≤ Int.fract y := by
      have h1 := Int.self_sub_floor x
      have h2 := Int.self_sub_floor y
      have : (⌊x⌋ : ℚ) = ⌊y⌋ := by rw [heq]
      linarith
    unfold round_half_even
    rw [heq]
    by_cases a1 : Int.fract x < 1 / 2
    · rw [if_pos a1]
      by_cases b1 : Int.fract y < 1 / 2
      · rw [if_pos b1]
      · rw [if_neg b1]
        by_cases b2 : 1 / 2 < Int.fract y
        · rw [if_pos b2]; omega
        · rw [if_neg b2]
          by_cases b3 : ⌊y⌋ % 2 = 0
          · rw [if_pos b3]
          · rw [if_neg b3]; omega
    · rw [if_neg a1]
      have b1 : ¬ Int.fract y < 1 / 2 := fun hb => a1 (lt_of_le_of_lt hfr hb)
      rw [if_neg b1]
      by_cases a2 : 1 / 2 < Int.fract x
      · rw [if_pos a2, if_pos (lt_of_lt_of_le a2 hfr)]
      · rw [if_neg a2]
        by_cases b2 : 1 / 2 < Int.fract y
        · rw [if_pos b2]
          by_cases a3 : ⌊y⌋ % 2 = 0
          · rw [if_pos a3]; omega
          · rw [if_neg a3]
        · rw [if_neg b2]

theorem ulp_pos (e : Int) : (0 : ℚ) < (2 : ℚ) ^ (e - 23) := zpow_pos (by norm_num) _

theorem ulp_mul (e : Int) : (2 : ℚ) ^ (e - 23) * 8388608 = (2 : ℚ) ^ e := by
  rw [zpow_sub₀ (by norm_num : (2 : ℚ) ≠ 0)]
  norm_num

theorem ulp_mul_succ (e : Int) : (2 : ℚ) ^ (e - 23) * 16777216 = (2 : ℚ) ^ (e + 1) := by
  rw [zpow_sub₀ (by norm_num : (2 : ℚ) ≠ 0), zpow_add₀ (by norm_num : (2 : ℚ) ≠ 0)]
  norm_num
  ring

theorem log_bounds (q : ℚ) (hq : 0 < q) :
    (2 : ℚ) ^ Int.log 2 q ≤ q ∧ q < (2 : ℚ) ^ (Int.log 2 q + 1) := by
  have h1 := Int.zpow_log_le_self (b := 2) (r := q) (by norm_num) hq
  have h2 := Int.lt_zpow_succ_log_self (b := 2) (by norm_num) q
  simp only [Nat.cast_ofNat] at h1 h2
  exact ⟨h1, h2⟩

theorem mantissa_bounds (q : ℚ) (hq : 0 < q) :
    (8388608 : ℚ) ≤ q / (2 : ℚ) ^ (Int.log 2 q - 23) ∧
    q / (2 : ℚ) ^ (Int.log 2 q - 23) < 16777216 := by
  obtain ⟨h1, h2⟩ := log_bounds q hq
  have hu := ulp_pos (Int.log 2 q)
  constructor
  · rw [le_div_iff₀ hu, mul_comm, ulp_mul]; exact h1
  · rw [div_lt_iff₀ hu, mul_comm, ulp_mul_succ]; exact h2

theorem float_round_bounds (q : ℚ) (hq : 0 < q) :
    (2 : ℚ) ^ Int.log 2 q ≤ float_round q ∧ float_round q ≤ (2 : ℚ) ^ (Int.log 2 q + 1) := by
  obtain ⟨h1, h2⟩ := mantissa_bounds q hq
  have hu := ulp_pos (Int.log 2 q)
  unfold float_round
  rw [if_neg (not_le.mpr hq)]
  simp only
  constructor
  · have : (8388608 : Int) ≤ round_half_even (q / (2 : ℚ) ^ (Int.log 2 q - 23)) :=
      le_rhe_of_int_le _ _ (by exact_mod_cast h1)
    have hc : (8388608 : ℚ) ≤ (round_half_even (q / (2 : ℚ) ^ (Int.log 2 q - 23)) : ℚ) := by
      exact_mod_cast this
    calc (2 : ℚ) ^ Int.log 2 q = 8388608 * (2 : ℚ) ^ (Int.log 2 q - 23) := by
            rw [mul_comm, ulp_mul]
      _ ≤ _ := mul_le_mul_of_nonneg_right hc hu.le
  · have : round_half_even (q / (2 : ℚ) ^ (Int.log 2 q - 23)) ≤ (16777216 : Int) :=
      rhe_le_of_le_int _ _ (by exact_mod_cast h2.le)
    have hc : (round_half_even (q / (2 : ℚ) ^ (Int.log 2 q - 23)) : ℚ) ≤ (16777216 : ℚ) := by
      exact_mod_cast this
    calc _ ≤ 16777216 * (2 : ℚ) ^ (Int.log 2 q - 23) := mul_le_mul_of_nonneg_right hc hu.le
      _ = (2 : ℚ) ^ (Int.log 2 q + 1) := by rw [mul_comm, ulp_mul_succ]

theorem float_round_nonneg (q : ℚ) : 0 ≤ float_round q := by
  by_cases hq : q ≤ 0
  · unfold float_round; rw [if_pos hq]
  · have hpos : 0 < q := not_le.mp hq
    exact le_trans (zpow_pos (by norm_num) _).le (float_round_bounds q hpos).1

theorem float_round_pos (q : ℚ) (hq : 0 < q) : 0 < float_round q :=
  lt_of_lt_of_le (zpow_pos (by norm_num) _) (float_round_bounds q hq).1

theorem float_round_mono (q1 q2 : ℚ) (h : q1 ≤ q2) : float_round q1 ≤ float_round q2 := by
  by_cases hq1 : q1 ≤ 0
  · have : float_round q1 = 0 := by unfold float_round; rw [if_pos hq1]
    rw [this]; exact float_round_nonneg q2
  · have hp1 : 0 < q1 := not_le.mp hq1
    have hp2 : 0 < q2 := lt_of_lt_of_le hp1 h
    have hlog : Int.log 2 q1 ≤ Int.log 2 q2 := Int.log_mono_right hp1 h
    rcases lt_or_eq_of_le hlog with hlt | heq
    · have h1 := (float_round_bounds q1 hp1).2
      have h2 := (float_round_bounds q2 hp2).1
      have : (2 : ℚ) ^ (Int.log 2 q1 + 1) ≤ (2 : ℚ) ^ Int.log 2 q2 :=
        zpow_le_zpow_right₀ (by norm_num) (by omega)
      linarith
    · unfold float_round
      rw [if_neg hq1, if_neg (not_le.mpr hp2)]
      simp only
      rw [heq]
      have hu := ulp_pos (Int.log 2 q2)
      have hx : q1 / (2 : ℚ) ^ (Int.log 2 q2 - 23) ≤ q2 / (2 : ℚ) ^ (Int.log 2 q2 - 23) :=
        div_le_div_of_nonneg_right h hu.le
      have := rhe_mono _ _ hx
      have hc : (round_half_even (q1 / (2 : ℚ) ^ (Int.log 2 q2 - 23)) : ℚ)
          ≤ (round_half_even (q2 / (2 : ℚ) ^ (Int.log 2 q2 - 23)) : ℚ) := by
        exact_mod_cast this
      exact mul_le_mul_of_nonneg_right hc hu.le

theorem float_round_zpow (z : Int) : float_round ((2 : ℚ) ^ z) = (2 : ℚ) ^ z := by
  have hpos : (0 : ℚ) < (2 : ℚ) ^ z := zpow_pos (by norm_num) _
  have hlog : Int.log 2 ((2 : ℚ) ^ z) = z := by
    have := Int.log_zpow (R := ℚ) (b := 2) (by norm_num) z
    simpa using this
  unfold float_round
  rw [if_neg (not_le.mpr hpos), hlog]
  simp only
  have hu := ulp_pos z
  have hx : (2 : ℚ) ^ z / (2 : ℚ) ^ (z - 23) = ((8388608 : Int) : ℚ) := by
    rw [div_eq_iff hu.ne']
    push_cast
    rw [mul_comm, ulp_mul]
  rw [hx, rhe_int]
  push_cast
  rw [mul_comm, ulp_mul]

theorem float_round_one : float_round 1 = 1 := by
  have := float_round_zpow 0
  simpa using this

theorem float_round_int_max : float_round ((2147483647 : Nat) : ℚ) = 2147483648 := by
  have hlog : Int.log 2 (((2147483647 : Nat) : ℚ)) = 30 := by
    rw [Int.log_natCast]
    have : Nat.log 2 2147483647 = 30 :=
      Nat.log_eq_of_pow_le_of_lt_pow (by norm_num) (by norm_num)
    rw [this]; rfl
  have hfloor : ⌊((2147483647 : ℚ) / 128)⌋ = 16777215 := by
    rw [Int.floor_eq_iff]
    constructor <;> norm_num
  have hrhe : round_half_even ((2147483647 : ℚ) / 128) = 16777216 := by
    unfold round_half_even
    have hfr : Int.fract ((2147483647 : ℚ) / 128) = 127 / 128 := by
      rw [← Int.self_sub_floor, hfloor]; norm_num
    rw [hfr, hfloor]
    norm_num
  unfold float_round
  rw [if_neg (by norm_num), hlog]
  norm_num
  rw [hrhe]
  norm_num

theorem float_round_two_pow_30 : float_round ((1073741824 : Nat) : ℚ) = 1073741824 := by
  have := float_round_zpow 30
  norm_num at this
  norm_num
  exact this

theorem float_round_half : float_round (1 / 2) = 1 / 2 := by
  have := float_round_zpow (-1)
  norm_num at this
  norm_num
  exact this

theorem rand_float_at_half : rand_float 2147483647 1073741824 = 1 / 2 := by
  unfold rand_float
  rw [float_round_two_pow_30, float_round_int_max]
  norm_num
  have := float_round_half
  norm_num at this
  exact this

theorem rand_float_nonneg (RAND_MAX r : Nat) : 0 ≤ rand_float RAND_MAX r :=
  float_round_nonneg _

theorem rand_float_le_one (RAND_MAX r : Nat) (hmax : 0 < RAND_MAX) (hr : r ≤ RAND_MAX) :
    rand_float RAND_MAX r ≤ 1 := by
  unfold rand_float
  have hpos : 0 < float_round (RAND_MAX : ℚ) := float_round_pos _ (by exact_mod_cast hmax)
  have hle : float_round (r : ℚ) ≤ float_round (RAND_MAX : ℚ) :=
    float_round_mono _ _ (by exact_mod_cast hr)
  have hq : float_round (r : ℚ) / float_round (RAND_MAX : ℚ) ≤ 1 := (div_le_one hpos).mpr hle
  have := float_round_mono _ _ hq
  rw [float_round_one] at this
  exact this

theorem rand_float_normal (RAND_MAX r : Nat) (hr0 : 0 < r) (hmax : 0 < RAND_MAX)
    (hint : RAND_MAX < 2 ^ 31) :
    (1 : ℚ) / 2147483648 ≤ rand_float RAND_MAX r := by
  unfold rand_float
  have h1 : (1 : ℚ) ≤ float_round (r : ℚ) := by
    have := float_round_mono 1 (r : ℚ) (by exact_mod_cast hr0)
    rw [float_round_one] at this
    exact this
  have hpos : 0 < float_round (RAND_MAX : ℚ) := float_round_pos _ (by exact_mod_cast hmax)
  have h2 : float_round (RAND_MAX : ℚ) ≤ 2147483648 := by
    have hle : (RAND_MAX : ℚ) ≤ (2 : ℚ) ^ (31 : Int) := by
      have : (RAND_MAX : ℚ) ≤ ((2 ^ 31 : Nat) : ℚ) := by exact_mod_cast hint.le
      norm_num at this ⊢
      exact this
    have := float_round_mono _ _ hle
    rw [float_round_zpow] at this
    norm_num at this
    exact this
  have hq : (2 : ℚ) ^ (-31 : Int) ≤ float_round (r : ℚ) / float_round (RAND_MAX : ℚ) := by
    rw [le_div_iff₀ hpos]
    have : (2 : ℚ) ^ (-31 : Int) * float_round (RAND_MAX : ℚ) ≤ 1 := by
      have h3 : (2 : ℚ) ^ (-31 : Int) = 1 / 2147483648 := by norm_num
      rw [h3]
      rw [div_mul_eq_mul_div, one_mul, div_le_one (by norm_num)]
      exact h2
    linarith
  have := float_round_mono _ _ hq
  rw [float_round_zpow] at this
  norm_num at this ⊢
  exact this

/-- C4, counterexample: `RAND_MAX = 2 ^ 31 - 1`, `rand()` returning `2 ^ 30`, threshold `1/2`.
The exact ratio `r / RAND_MAX` is above `1/2`, but `(float)RAND_MAX` is `2 ^ 31`, the `float`
draw is exactly `1/2`, and `random_fail` returns 1. -/
theorem random_fail_exact_ratio_fails :
    ¬ (((1073741824 : Nat) : ℚ) / ((2147483647 : Nat) : ℚ) ≤ 1 / 2) ∧
    rand_float 2147483647 1073741824 = 1 / 2 ∧
    random_fail 2147483647 (1 / 2) 1073741824 = FailDraw.ret 1 := by
  refine ⟨by norm_num, rand_float_at_half, ?_⟩
  unfold random_fail
  rw [rand_float_at_half, if_pos (le_refl _)]

/-- C4, as amended: with the draw `d` the `float` value that api.c 43 computes from `rand() = r`
(`rand_float`), for `0 ≤ r ≤ RAND_MAX` and `0 < RAND_MAX < 2 ^ 31`: `random_fail` returns 1
exactly when `d ≤ p`, returns 0 when `p < d ≤ 1`, and never takes the `exit` branch, because
`d ≤ 1`; with the threshold `PROB_FAIL = 1` of the source it returns 1 for every `r`, so neither
`return 0` nor the `exit` branch is reached.  A non-zero draw is at least `2 ^ (-31)`. -/
theorem random_fail_spec (RAND_MAX r : Nat) (p : ℚ) (hmax : 0 < RAND_MAX) (hr : r ≤ RAND_MAX)
    (hint : RAND_MAX < 2 ^ 31) :
    (random_fail RAND_MAX p r = FailDraw.ret 1 ↔ rand_float RAND_MAX r ≤ p) ∧
    (p < rand_float RAND_MAX r ∧ rand_float RAND_MAX r ≤ 1 →
      random_fail RAND_MAX p r = FailDraw.ret 0) ∧
    random_fail RAND_MAX p r ≠ FailDraw.exit_program ∧
    random_fail RAND_MAX PROB_FAIL r = FailDraw.ret 1 ∧
    random_fail RAND_MAX PROB_FAIL r ≠ FailDraw.ret 0 ∧
    random_fail RAND_MAX PROB_FAIL r ≠ FailDraw.exit_program ∧
    rand_float RAND_MAX r ≤ 1 ∧
    (0 < r → (1 : ℚ) / 2147483648 ≤ rand_float RAND_MAX r) := by
  have hd := rand_float_le_one RAND_MAX r hmax hr
  have h1 : random_fail RAND_MAX PROB_FAIL r = FailDraw.ret 1 := by
    simp only [random_fail, PROB_FAIL, if_pos hd]
  refine ⟨?_, ?_, ?_, h1, ?_, ?_, hd, fun hr0 => rand_float_normal RAND_MAX r hr0 hmax hint⟩
  · by_cases h : rand_float RAND_MAX r ≤ p
    · simp [random_fail, h]
    · have h' : p < rand_float RAND_MAX r := not_le.mp h
      simp [random_fail, h, h', hd]
  · rintro ⟨h, _⟩
    simp [random_fail, not_le.mpr h, h, hd]
  · by_cases h : rand_float RAND_MAX r ≤ p
    · simp [random_fail, h]
    · have h' : p < rand_float RAND_MAX r := not_le.mp h
      simp [random_fail, h, h', hd]
  · rw [h1]; decide
  · rw [h1]; decide

/-- Witness of C4 as amended at `RAND_MAX = 32767`, `r = 32767` (the largest draw) and
`p = 1/2`. -/
theorem random_fail_spec_witness :
    (0 < 32767 ∧ 32767 ≤ 32767 ∧ 32767 < 2 ^ 31) ∧
    ((random_fail 32767 (1 / 2) 32767 = FailDraw.ret 1 ↔ rand_float 32767 32767 ≤ 1 / 2) ∧
    (1 / 2 < rand_float 32767 32767 ∧ rand_float 32767 32767 ≤ 1 →
      random_fail 32767 (1 / 2) 32767 = FailDraw.ret 0) ∧
    random_fail 32767 (1 / 2) 32767 ≠ FailDraw.exit_program ∧
    random_fail 32767 PROB_FAIL 32767 = FailDraw.ret 1 ∧
    random_fail 32767 PROB_FAIL 32767 ≠ FailDraw.ret 0 ∧
    random_fail 32767 PROB_FAIL 32767 ≠ FailDraw.exit_program ∧
    rand_float 32767 32767 ≤ 1 ∧
    (0 < 32767 → (1 : ℚ) / 2147483648 ≤ rand_float 32767 32767)) :=
  ⟨⟨by decide, by decide, by decide⟩,
    random_fail_spec 32767 32767 (1 / 2) (by decide) (by decide) (by decide)⟩

/-! ## Worker loops: properties -/

theorem take_first_some {γ δ : Type} (f : γ → Option δ) :
    ∀ (l : List γ) (x : γ) (r : δ) (rest : List γ),
      take_first f l = some (x, r, rest) → f x = some r ∧ l.Perm (x :: rest) := by
  intro l
  induction l with
  | nil => intro x r rest h; simp [take_first] at h
  | cons a as ih =>
    intro x r rest h
    unfold take_first at h
    cases hfa : f a with
    | some v =>
      rw [hfa] at h
      simp only [Option.some.injEq, Prod.mk.injEq] at h
      obtain ⟨rfl, rfl, rfl⟩ := h
      exact ⟨hfa, List.Perm.refl _⟩
    | none =>
      rw [hfa] at h
      cases htf : take_first f as with
      | none => rw [htf] at h; simp at h
      | some v =>
        obtain ⟨x1, r1, rest1⟩ := v
        rw [htf] at h
        simp only [Option.some.injEq, Prod.mk.injEq] at h
        obtain ⟨rfl, rfl, rfl⟩ := h
        obtain ⟨h1, h2⟩ := ih x1 r1 rest1 htf
        exact ⟨h1, (List.Perm.cons a h2).trans (List.Perm.swap _ _ _)⟩

theorem take_first_isSome {γ δ : Type} (f : γ → Option δ) :
    ∀ (l : List γ), (∃ x ∈ l, (f x).isSome = true) → (take_first f l).isSome = true := by
  intro l
  induction l with
  | nil => rintro ⟨x, hx, _⟩; simp at hx
  | cons a as ih =>
    rintro ⟨x, hx, hfx⟩
    unfold take_first
    cases hfa : f a with
    | some v => simp
    | none =>
      have hx2 : x ∈ as := by
        rcases List.mem_cons.mp hx with rfl | h
        · rw [hfa] at hfx; simp at hfx
        · exact h
      have := ih ⟨x, hx2, hfx⟩
      cases htf : take_first f as with
      | none => rw [htf] at this; simp at this
      | some v => obtain ⟨x1, r1, rest1⟩ := v; simp

theorem deliver_some {β : Type} (want : Option Int) (choice : Nat) (pending : List (Pending β))
    (m : Pending β) (r : β) (rest : List (Pending β))
    (h : deliver want choice pending = some (m, r, rest)) :
    m.result_for want = some r ∧ pending.Perm (m :: rest) := by
  unfold deliver at h
  simp only at h
  split at h
  · simp at h
  · rename_i c _
    obtain ⟨h1, h2⟩ := take_first_some _ _ _ _ _ h
    refine ⟨?_, h2⟩
    by_cases hw : m.worker = c.worker
    · simpa [hw] using h1
    · simp [hw] at h1

theorem deliver_isSome {β : Type} (want : Option Int) (choice : Nat)
    (pending : List (Pending β))
    (h : ∃ x ∈ pending, (x.result_for want).isSome = true) :
    (deliver want choice pending).isSome = true := by
  obtain ⟨x, hx, hfx⟩ := h
  unfold deliver
  simp only
  have hmem : x ∈ pending.filter (fun m => (m.result_for want).isSome) := by
    simp [List.mem_filter, hx, hfx]
  have hpos : 0 < (pending.filter (fun m => (m.result_for want).isSome)).length :=
    List.length_pos_of_mem hmem
  have hlt : choice % (pending.filter (fun m => (m.result_for want).isSome)).length
      < (pending.filter (fun m => (m.result_for want).isSome)).length := Nat.mod_lt _ hpos
  rw [List.getElem?_eq_getElem hlt]
  simp only
  apply take_first_isSome
  have hc := List.getElem_mem hlt
  rw [List.mem_filter] at hc
  refine ⟨_, hc.1, ?_⟩
  simpa using hc.2

/-! ## The dynamic scheduler: invariant -/

theorem result_for_work_2 {α β : Type} (api : Api α β) (p k : Nat) (w : α) :
    Pending.result_for (some api.RESULT_TAG)
      (Pending.mk p k (worker_body_2 api.WORK_TAG api.RESULT_TAG api.do_one_work
        (FailDraw.ret 0) api.WORK_TAG w).reply) = some (api.do_one_work w) := by
  simp [Pending.result_for, worker_body_2, F_ISend, WorkerStep.reply]

theorem core2_send {α β : Type} (api : Api α β) (sz cur recvd : Nat) (ra : List β)
    (sent : List Sent) (pending : List (Pending β)) (p : Nat) (w : α)
    (h : Core2 api sz cur recvd ra sent pending)
    (hw : api.work_chunks[cur]? = some w) (hp1 : 1 ≤ p) (hp2 : p < sz)
    (hfree : p ∉ pending.map Pending.worker) :
    Core2 api sz (cur + 1) recvd ra (sent ++ [Sent.mk p api.WORK_TAG cur])
      (pending ++ [Pending.mk p cur
        (worker_body_2 api.WORK_TAG api.RESULT_TAG api.do_one_work (FailDraw.ret 0)
          api.WORK_TAG w).reply]) := by
  have hlt : cur < api.work_chunks.length := by
    by_contra hc
    rw [List.getElem?_eq_none (not_lt.mp hc)] at hw
    simp at hw
  refine ⟨hlt, ?_, ?_, ?_, ?_, ?_, h.len, ?_⟩
  · simp [List.range_succ, h.sent_chunks]
  · intro m hm
    rcases List.mem_append.mp hm with hm | hm
    · exact h.sent_dest m hm
    · simp at hm; subst hm; exact ⟨hp1, hp2⟩
  · intro m hm
    rcases List.mem_append.mp hm with hm | hm
    · exact h.pend_worker m hm
    · simp at hm; subst hm; exact ⟨hp1, hp2⟩
  · rw [List.map_append, List.nodup_append]
    refine ⟨h.nodup, by simp, ?_⟩
    intro a ha hb
    simp at hb
    subst hb
    exact hfree ha
  · rw [List.take_succ, hw, List.map_append, List.map_append, ← List.append_assoc]
    simp only [List.map_cons, List.map_nil, Option.toList, result_for_work_2]
    exact List.Perm.append_right _ h.replies
  · have := h.count
    simp only [List.length_append, List.length_singleton]
    omega

theorem core2_recv {α β : Type} (api : Api α β) (sz cur recvd : Nat) (ra : List β)
    (sent : List Sent) (pending : List (Pending β)) (choice : Nat)
    (m : Pending β) (r : β) (rest : List (Pending β))
    (h : Core2 api sz cur recvd ra sent pending)
    (hd : deliver (some api.RESULT_TAG) choice pending = some (m, r, rest)) :
    Core2 api sz cur (recvd + 1) (ra ++ [r]) sent rest ∧
      (1 ≤ m.worker ∧ m.worker < sz ∧ m.worker ∉ rest.map Pending.worker) ∧ m ∈ pending := by
  obtain ⟨hr, hperm⟩ := deliver_some _ _ _ _ _ _ hd
  have hm : m ∈ pending := hperm.symm.subset (List.mem_cons_self _ _)
  have hnd : (m.worker :: rest.map Pending.worker).Nodup := by
    have := (hperm.map Pending.worker).nodup_iff.mp h.nodup
    simpa using this
  refine ⟨⟨h.cur_le, h.sent_chunks, h.sent_dest, ?_, (List.nodup_cons.mp hnd).2, ?_, ?_, ?_⟩,
    ⟨(h.pend_worker m hm).1, (h.pend_worker m hm).2, (List.nodup_cons.mp hnd).1⟩, hm⟩
  · intro x hx
    exact h.pend_worker x (hperm.symm.subset (List.mem_cons_of_mem _ hx))
  · refine List.Perm.trans ?_ h.replies
    have h1 := hperm.map (Pending.result_for (some api.RESULT_TAG))
    rw [List.map_cons, hr] at h1
    rw [List.map_append, List.append_assoc]
    exact List.Perm.append_left _ h1.symm
  · simp [h.len]
  · have := h.count
    have := hperm.length_eq
    simp only [List.length_cons] at this
    omega

theorem inv2_step {α β : Type} (api : Api α β) (sz choice : Nat) (s : Master2 β)
    (h : Inv2 api sz s) : Inv2 api sz (step2 api sz choice s) := by
  obtain ⟨pc, cur, recvd, ra, nm, sent, pending⟩ := s
  obtain ⟨hc, hp⟩ := h
  simp only at hc
  cases pc with
  | batch p =>
    simp only [PcOk2] at hp
    obtain ⟨hp1, hr0, hlt, hnext⟩ := hp
    simp only [step2]
    by_cases hpsz : p < sz
    · rw [if_pos hpsz]
      cases hw : api.work_chunks[cur]? with
      | none =>
        refine ⟨hc, ?_⟩
        simp only [PcOk2]
        have hge : api.work_chunks.length ≤ cur := List.getElem?_eq_none_iff.mp hw
        refine ⟨by omega, hr0, ?_, by omega⟩
        intro m hm
        have := (hc.pend_worker m hm).2
        omega
      | some w =>
        have hfree : p ∉ pending.map Pending.worker := by
          intro hmem
          obtain ⟨m, hm, hmp⟩ := List.mem_map.mp hmem
          have := hlt m hm
          omega
        refine ⟨core2_send api sz cur recvd ra sent pending p w hc hw hp1 hpsz hfree, ?_⟩
        simp only [PcOk2, send_work_2]
        refine ⟨by omega, hr0, ?_, ?_⟩
        · intro m hm
          rcases List.mem_append.mp hm with hm | hm
          · have := hlt m hm; omega
          · simp at hm; subst hm; simp
        · intro _
          have hlt2 : cur < api.work_chunks.length := by
            by_contra hcon
            rw [List.getElem?_eq_none (not_lt.mp hcon)] at hw
            simp at hw
          have := hnext hlt2
          omega
    · rw [if_neg hpsz]
      exact ⟨hc, by simp [PcOk2]⟩
  | wait =>
    simp only [step2]
    by_cases hne : recvd ≠ api.work_chunks.length
    · rw [if_pos hne]
      cases hd : deliver (some api.RESULT_TAG) choice pending with
      | none => exact ⟨hc, by simp [PcOk2]⟩
      | some v =>
        obtain ⟨m, r, rest⟩ := v
        obtain ⟨hcore, hsrc, _⟩ := core2_recv api sz cur recvd ra sent pending choice m r rest hc hd
        exact ⟨hcore, by simpa [PcOk2] using hsrc⟩
    · rw [if_neg hne]
      have hrec : recvd = api.work_chunks.length := not_not.mp hne
      have hcur : cur = api.work_chunks.length := by
        have := hc.count
        have := hc.cur_le
        omega
      rw [if_pos hcur]
      exact ⟨hc, by simp [PcOk2, hcur, hrec]⟩
  | reply src =>
    simp only [PcOk2] at hp
    obtain ⟨hs1, hs2, hfree⟩ := hp
    simp only [step2]
    by_cases hlt : cur < api.work_chunks.length
    · rw [if_pos hlt]
      cases hw : api.work_chunks[cur]? with
      | none =>
        rw [List.getElem?_eq_getElem hlt] at hw
        simp at hw
      | some w =>
        exact ⟨core2_send api sz cur recvd ra sent pending src w hc hw hs1 hs2 hfree,
          by simp [PcOk2]⟩
    · rw [if_neg hlt]
      exact ⟨hc, by simp [PcOk2]⟩
  | exited => exact ⟨hc, hp⟩
  | assert_failed l => exact ⟨hc, hp⟩
  | blocked => exact ⟨hc, hp⟩

theorem inv2_init {α β : Type} (api : Api α β) (sz : Nat) :
    Inv2 api sz (init2 : Master2 β) := by
  refine ⟨⟨by simp [init2], by simp [init2], by simp [init2], by simp [init2],
    by simp [init2], by simp [init2], by simp [init2], by simp [init2]⟩, ?_⟩
  simp [PcOk2, init2]

theorem inv2_run {α β : Type} (api : Api α β) (sz : Nat) (arrival : Nat → Nat) (t : Nat) :
    Inv2 api sz (run2 api sz arrival t) := by
  induction t with
  | zero => exact inv2_init api sz
  | succ t ih => exact inv2_step api sz (arrival t) _ ih

theorem pending_answerable {α β : Type} (api : Api α β) (sz cur recvd : Nat) (ra : List β)
    (sent : List Sent) (pending : List (Pending β))
    (h : Core2 api sz cur recvd ra sent pending) (x : Pending β) (hx : x ∈ pending) :
    (x.result_for (some api.RESULT_TAG)).isSome = true := by
  have hmem : x.result_for (some api.RESULT_TAG) ∈
      ra.map some ++ pending.map (Pending.result_for (some api.RESULT_TAG)) :=
    List.mem_append_right _ (List.mem_map_of_mem _ hx)
  have := h.replies.subset hmem
  obtain ⟨w, _, hw⟩ := List.mem_map.mp this
  rw [← hw]; rfl

theorem progress2 {α β : Type} (api : Api α β) (sz choice : Nat) (s : Master2 β)
    (hsz : 2 ≤ sz) (h : Inv2 api sz s) (hl : Live2 api s) :
    Live2 api (step2 api sz choice s) ∧
      (s.pc = Pc2.exited ∨ measure2 api sz (step2 api sz choice s) < measure2 api sz s) := by
  obtain ⟨pc, cur, recvd, ra, nm, sent, pending⟩ := s
  obtain ⟨hc, hp⟩ := h
  simp only at hc
  cases pc with
  | batch p =>
    simp only [PcOk2] at hp
    obtain ⟨hp1, hr0, hlt, hnext⟩ := hp
    simp only [step2]
    by_cases hpsz : p < sz
    · rw [if_pos hpsz]
      cases hw : api.work_chunks[cur]? with
      | none =>
        refine ⟨by simp [Live2], Or.inr ?_⟩
        simp only [measure2]
        omega
      | some w =>
        refine ⟨by simp [Live2, send_work_2], Or.inr ?_⟩
        simp only [measure2, send_work_2]
        omega
    · rw [if_neg hpsz]
      refine ⟨?_, Or.inr ?_⟩
      · simp only [Live2]
        intro hcur hnil
        have h1 := hnext hcur
        have h2 := hc.count
        rw [hnil] at h2
        simp only [List.length_nil] at h2
        omega
      · simp only [measure2]
        omega
  | wait =>
    simp only [Live2] at hl
    simp only [step2]
    have hcnt := hc.count
    have hle := hc.cur_le
    by_cases hne : recvd ≠ api.work_chunks.length
    · rw [if_pos hne]
      have hnonempty : pending ≠ [] := by
        by_cases hcur : cur < api.work_chunks.length
        · exact hl hcur
        · intro hnil
          rw [hnil] at hcnt
          simp only [List.length_nil] at hcnt
          omega
      obtain ⟨x, hx⟩ := List.exists_mem_of_ne_nil _ hnonempty
      have hsome := deliver_isSome (some api.RESULT_TAG) choice pending
        ⟨x, hx, pending_answerable api sz cur recvd ra sent pending hc x hx⟩
      cases hd : deliver (some api.RESULT_TAG) choice pending with
      | none => rw [hd] at hsome; simp at hsome
      | some v =>
        obtain ⟨m, r, rest⟩ := v
        refine ⟨by simp [Live2], Or.inr ?_⟩
        simp only [measure2]
        omega
    · rw [if_neg hne]
      have hrec : recvd = api.work_chunks.length := not_not.mp hne
      have hcur : cur = api.work_chunks.length := by omega
      rw [if_pos hcur]
      refine ⟨by simp [Live2], Or.inr ?_⟩
      simp only [measure2]
      omega
  | reply src =>
    simp only [step2]
    by_cases hlt : cur < api.work_chunks.length
    · rw [if_pos hlt]
      cases hw : api.work_chunks[cur]? with
      | none =>
        rw [List.getElem?_eq_getElem hlt] at hw
        simp at hw
      | some w =>
        refine ⟨by simp [Live2, send_work_2], Or.inr ?_⟩
        simp only [measure2, send_work_2]
        omega
    · rw [if_neg hlt]
      refine ⟨?_, Or.inr ?_⟩
      · simp only [Live2]
        intro hcon
        exact absurd hcon hlt
      · simp only [measure2]
        omega
  | exited => exact ⟨by simp [step2, Live2], Or.inl rfl⟩
  | assert_failed l => exact absurd hp (by simp [PcOk2])
  | blocked => exact absurd hl (by simp [Live2])

theorem live2_run {α β : Type} (api : Api α β) (sz : Nat) (arrival : Nat → Nat)
    (hsz : 2 ≤ sz) (t : Nat) :
    Live2 api (run2 api sz arrival t) ∧
      measure2 api sz (run2 api sz arrival t) ≤ 2 * api.work_chunks.length + sz + 3 - t := by
  induction t with
  | zero =>
    refine ⟨by simp [run2, init2, Live2], ?_⟩
    simp only [run2, init2, measure2]
    omega
  | succ t ih =>
    obtain ⟨hl, hm⟩ := ih
    obtain ⟨hl2, hdec⟩ := progress2 api sz (arrival t) _ hsz (inv2_run api sz arrival t) hl
    refine ⟨hl2, ?_⟩
    rcases hdec with hex | hdec
    · have : measure2 api sz (run2 api sz arrival (t + 1)) = 0 := by
        simp only [run2]
        generalize run2 api sz arrival t = s at hex
        obtain ⟨pc, cur, recvd, ra, nm, sent, pending⟩ := s
        simp only at hex
        subst hex
        simp [step2, measure2]
      omega
    · simp only [run2] at hdec ⊢
      omega

theorem perm_of_map_some {β : Type} (l1 l2 : List β)
    (h : (l1.map some).Perm (l2.map some)) : l1.Perm l2 := by
  have := h.filterMap id
  simpa [List.filterMap_map] using this

theorem never_assert_failed_2 {α β : Type} (api : Api α β) (sz : Nat) (arrival : Nat → Nat)
    (t line : Nat) : (run2 api sz arrival t).pc ≠ Pc2.assert_failed line := by
  intro hpc
  have h := (inv2_run api sz arrival t).2
  simp [PcOk2, hpc] at h

/-- C1: the master of `MW_Run_2` with at least one worker (`sz ≥ 2`), workers that answer every
work message with one result, and any order of arrival of the results: after
`2 N + sz + 3` steps the master has left the collection loop and passed the assertion of
line 156; `N` results are recorded; `current_work_chunk = N`; the chunk indices sent are
`0, 1, .., N-1`, each once and each to a worker rank; the recorded results are the results of
the `N` chunks, one per chunk; and at no step an assertion fails or the master waits for a
result that cannot come. -/
theorem MW_Run_2_collects_every_result {α β : Type} (api : Api α β) (sz : Nat)
    (arrival : Nat → Nat) (t : Nat) (hsz : 2 ≤ sz)
    (ht : 2 * api.work_chunks.length + sz + 3 ≤ t) :
    (run2 api sz arrival t).pc = Pc2.exited ∧
    (run2 api sz arrival t).num_results_received = api.work_chunks.length ∧
    (run2 api sz arrival t).result_array.length = api.work_chunks.length ∧
    (run2 api sz arrival t).current_work_chunk = api.work_chunks.length ∧
    (run2 api sz arrival t).sent.map Sent.chunk = List.range api.work_chunks.length ∧
    (∀ m ∈ (run2 api sz arrival t).sent, 1 ≤ m.dest ∧ m.dest < sz) ∧
    (run2 api sz arrival t).pending = [] ∧
    (run2 api sz arrival t).result_array.Perm (api.work_chunks.map api.do_one_work) ∧
    (∀ u line, (run2 api sz arrival u).pc ≠ Pc2.assert_failed line) ∧
    (∀ u, (run2 api sz arrival u).pc ≠ Pc2.blocked) := by
  have hblocked : ∀ u, (run2 api sz arrival u).pc ≠ Pc2.blocked := by
    intro u hpc
    have h := (live2_run api sz arrival hsz u).1
    simp [Live2, hpc] at h
  obtain ⟨hcore, hpc⟩ := inv2_run api sz arrival t
  have hm := (live2_run api sz arrival hsz t).2
  have hzero : measure2 api sz (run2 api sz arrival t) = 0 := by omega
  have hb := hblocked t
  have ha := never_assert_failed_2 api sz arrival t
  generalize run2 api sz arrival t = s at hcore hpc hzero hb ha ⊢
  obtain ⟨pc, cur, recvd, ra, nm, sent, pending⟩ := s
  simp only at hcore hb ha ⊢
  cases pc with
  | batch p => simp only [measure2] at hzero; omega
  | wait => simp only [measure2] at hzero; omega
  | reply src => simp only [measure2] at hzero; omega
  | assert_failed l => exact absurd rfl (ha l)
  | blocked => exact absurd rfl hb
  | exited =>
    simp only [PcOk2] at hpc
    obtain ⟨hcur, hrec⟩ := hpc
    have hcount := hcore.count
    have hnil : pending = [] := by
      apply List.eq_nil_of_length_eq_zero
      omega
    have hrep := hcore.replies
    rw [hnil, hcur] at hrep
    simp only [List.map_nil, List.append_nil, List.take_length] at hrep
    refine ⟨rfl, hrec, by rw [hcore.len, hrec], hcur, by rw [hcore.sent_chunks, hcur],
      hcore.sent_dest, hnil, ?_, fun u line => never_assert_failed_2 api sz arrival u line,
      hblocked⟩
    apply perm_of_map_some
    simpa [List.map_map] using hrep

/-- Witness of C1: three chunks, two workers (`sz = 3`), results always taken from the first
worker that has one, after 12 steps. -/
theorem MW_Run_2_collects_every_result_witness :
    (2 ≤ 3 ∧ 2 * api_demo.work_chunks.length + 3 + 3 ≤ 12) ∧
    ((run2 api_demo 3 (fun _ => 0) 12).pc = Pc2.exited ∧
    (run2 api_demo 3 (fun _ => 0) 12).num_results_received = api_demo.work_chunks.length ∧
    (run2 api_demo 3 (fun _ => 0) 12).result_array.length = api_demo.work_chunks.length ∧
    (run2 api_demo 3 (fun _ => 0) 12).current_work_chunk = api_demo.work_chunks.length ∧
    (run2 api_demo 3 (fun _ => 0) 12).sent.map Sent.chunk
      = List.range api_demo.work_chunks.length ∧
    (∀ m ∈ (run2 api_demo 3 (fun _ => 0) 12).sent, 1 ≤ m.dest ∧ m.dest < 3) ∧
    (run2 api_demo 3 (fun _ => 0) 12).pending = [] ∧
    (run2 api_demo 3 (fun _ => 0) 12).result_array.Perm
      (api_demo.work_chunks.map api_demo.do_one_work) ∧
    (∀ u line, (run2 api_demo 3 (fun _ => 0) u).pc ≠ Pc2.assert_failed line) ∧
    (∀ u, (run2 api_demo 3 (fun _ => 0) u).pc ≠ Pc2.blocked)) :=
  ⟨⟨by decide, by decide⟩,
    MW_Run_2_collects_every_result api_demo 3 (fun _ => 0) 12 (by decide) (by decide)⟩

theorem outstanding_eq_count {β : Type} (pending : List (Pending β)) (worker : Nat) :
    outstanding pending worker = (pending.map Pending.worker).count worker := by
  induction pending with
  | nil => simp [outstanding]
  | cons a as ih =>
    unfold outstanding at ih ⊢
    by_cases h : a.worker = worker
    · simp [List.filter_cons, h, ih]
    · simp [List.filter_cons, h, ih, List.count_cons]

theorem step2_sends {α β : Type} (api : Api α β) (sz choice : Nat) (s : Master2 β)
    (h : Inv2 api sz s) :
    (step2 api sz choice s).sent = s.sent ∨
      ∃ dest, (step2 api sz choice s).sent
          = s.sent ++ [Sent.mk dest api.WORK_TAG s.current_work_chunk] ∧
        s.current_work_chunk < api.work_chunks.length ∧
        dest ∉ s.pending.map Pending.worker ∧
        (s.pc = Pc2.batch dest ∨ s.pc = Pc2.reply dest) := by
  obtain ⟨pc, cur, recvd, ra, nm, sent, pending⟩ := s
  obtain ⟨hc, hp⟩ := h
  simp only at hc
  cases pc with
  | batch p =>
    simp only [PcOk2] at hp
    obtain ⟨hp1, hr0, hlt, hnext⟩ := hp
    simp only [step2]
    by_cases hpsz : p < sz
    · rw [if_pos hpsz]
      cases hw : api.work_chunks[cur]? with
      | none => exact Or.inl rfl
      | some w =>
        refine Or.inr ⟨p, by simp [send_work_2], ?_, ?_, Or.inl rfl⟩
        · by_contra hcon
          rw [List.getElem?_eq_none (not_lt.mp hcon)] at hw
          simp at hw
        · intro hmem
          obtain ⟨m, hm, hmp⟩ := List.mem_map.mp hmem
          have := hlt m hm
          omega
    · rw [if_neg hpsz]
      exact Or.inl rfl
  | wait =>
    simp only [step2]
    left
    split
    · split <;> rfl
    · split <;> rfl
  | reply src =>
    simp only [PcOk2] at hp
    simp only [step2]
    by_cases hlt : cur < api.work_chunks.length
    · rw [if_pos hlt]
      cases hw : api.work_chunks[cur]? with
      | none => exact Or.inl rfl
      | some w => exact Or.inr ⟨src, by simp [send_work_2], hlt, hp.2.2, Or.inr rfl⟩
    · rw [if_neg hlt]
      exact Or.inl rfl
  | exited => exact Or.inl rfl
  | assert_failed l => exact Or.inl rfl
  | blocked => exact Or.inl rfl

theorem reply_just_received {α β : Type} (api : Api α β) (sz : Nat) (arrival : Nat → Nat)
    (t dest : Nat) (hpc : (run2 api sz arrival t).pc = Pc2.reply dest) :
    ∃ u m result rest, t = u + 1 ∧ (run2 api sz arrival u).pc = Pc2.wait ∧
      deliver (some api.RESULT_TAG) (arrival u) (run2 api sz arrival u).pending
        = some (m, result, rest) ∧
      m.worker = dest ∧
      (run2 api sz arrival t).result_array = (run2 api sz arrival u).result_array ++ [result] ∧
      (run2 api sz arrival t).pending = rest := by
  cases t with
  | zero => simp [run2, init2] at hpc
  | succ u =>
    refine ⟨u, ?_⟩
    simp only [run2] at hpc ⊢
    generalize run2 api sz arrival u = s at hpc ⊢
    obtain ⟨pc, cur, recvd, ra, nm, sent, pending⟩ := s
    cases pc with
    | batch p =>
      simp only [step2] at hpc
      split at hpc
      · split at hpc <;> simp at hpc
      · simp at hpc
    | wait =>
      simp only [step2] at hpc
      by_cases hne : recvd ≠ api.work_chunks.length
      · rw [if_pos hne] at hpc
        cases hd : deliver (some api.RESULT_TAG) (arrival u) pending with
        | none => rw [hd] at hpc; simp at hpc
        | some v =>
          obtain ⟨m, r, rest⟩ := v
          rw [hd] at hpc
          simp only [Pc2.reply.injEq] at hpc
          refine ⟨m, r, rest, ?_, ?_, ?_, hpc, ?_, ?_⟩ <;> simp [step2, hne, hd]
      · rw [if_neg hne] at hpc
        split at hpc <;> simp at hpc
    | reply src =>
      simp only [step2] at hpc
      split at hpc
      · split at hpc <;> simp at hpc
      · simp at hpc
    | exited => simp [step2] at hpc
    | assert_failed l => simp [step2] at hpc
    | blocked => simp [step2] at hpc

/-- C2: in every state the master of `MW_Run_2` reaches, under every order of arrival, each
worker has at most one chunk sent to it and not yet answered.  A step sends at most one chunk,
and only while chunks remain unsent (`current_work_chunk < N`); the destination has no
unanswered chunk; in the initial batch it is the worker `process_num` of the `for` loop, and
after the batch it is `status.MPI_SOURCE` of the `MPI_Recv` executed in the step before, whose
result was stored by that step. -/
theorem MW_Run_2_one_outstanding_per_worker {α β : Type} (api : Api α β) (sz : Nat)
    (arrival : Nat → Nat) (t : Nat) :
    (∀ worker, outstanding (run2 api sz arrival t).pending worker ≤ 1) ∧
    ((run2 api sz arrival (t + 1)).sent = (run2 api sz arrival t).sent ∨
      ∃ dest,
        (run2 api sz arrival (t + 1)).sent = (run2 api sz arrival t).sent ++
          [Sent.mk dest api.WORK_TAG (run2 api sz arrival t).current_work_chunk] ∧
        (run2 api sz arrival t).current_work_chunk < api.work_chunks.length ∧
        outstanding (run2 api sz arrival t).pending dest = 0 ∧
        ((run2 api sz arrival t).pc = Pc2.batch dest ∨
          ((run2 api sz arrival t).pc = Pc2.reply dest ∧
            ∃ u m result rest, t = u + 1 ∧ (run2 api sz arrival u).pc = Pc2.wait ∧
              deliver (some api.RESULT_TAG) (arrival u) (run2 api sz arrival u).pending
                = some (m, result, rest) ∧
              m.worker = dest ∧
              (run2 api sz arrival t).result_array
                = (run2 api sz arrival u).result_array ++ [result] ∧
              (run2 api sz arrival t).pending = rest))) := by
  have hinv := inv2_run api sz arrival t
  refine ⟨?_, ?_⟩
  · intro worker
    rw [outstanding_eq_count]
    exact List.nodup_iff_count_le_one.mp hinv.1.nodup worker
  · rcases step2_sends api sz (arrival t) _ hinv with h | ⟨dest, h1, h2, h3, h4⟩
    · exact Or.inl h
    · refine Or.inr ⟨dest, h1, h2, ?_, ?_⟩
      · rw [outstanding_eq_count]
        exact List.count_eq_zero_of_not_mem h3
      · rcases h4 with h4 | h4
        · exact Or.inl h4
        · exact Or.inr ⟨h4, reply_just_received api sz arrival t dest h4⟩

/-! ## The static scheduler: invariant of the distribution loop -/

theorem take_first_sublist {γ δ : Type} (f : γ → Option δ) :
    ∀ (l : List γ) (x : γ) (r : δ) (rest : List γ),
      take_first f l = some (x, r, rest) → rest.Sublist l := by
  intro l
  induction l with
  | nil => intro x r rest h; simp [take_first] at h
  | cons a as ih =>
    intro x r rest h
    unfold take_first at h
    cases hfa : f a with
    | some v =>
      rw [hfa] at h
      simp only [Option.some.injEq, Prod.mk.injEq] at h
      obtain ⟨_, _, rfl⟩ := h
      exact List.sublist_cons_self _ _
    | none =>
      rw [hfa] at h
      cases htf : take_first f as with
      | none => rw [htf] at h; simp at h
      | some v =>
        obtain ⟨x1, r1, rest1⟩ := v
        rw [htf] at h
        simp only [Option.some.injEq, Prod.mk.injEq] at h
        obtain ⟨_, _, rfl⟩ := h
        exact (ih x1 r1 rest1 htf).cons₂ a

theorem deliver_sublist {β : Type} (want : Option Int) (choice : Nat)
    (pending : List (Pending β)) (m : Pending β) (r : β) (rest : List (Pending β))
    (h : deliver want choice pending = some (m, r, rest)) : rest.Sublist pending := by
  unfold deliver at h
  simp only at h
  split at h
  · simp at h
  · exact take_first_sublist _ _ _ _ _ h

theorem poll_block_fields {α β : Type} (env : Env1 α β) (s : Master1 β) :
    (poll_block env s).i = s.i ∧ (poll_block env s).sent = s.sent ∧
    (poll_block env s).process_num = s.process_num ∧
    (poll_block env s).worker_status = s.worker_status ∧
    (poll_block env s).we_have_live_workers = s.we_have_live_workers ∧
    (poll_block env s).pending.Sublist s.pending := by
  unfold poll_block
  split
  · simp
  · split
    · simp
    · rename_i hd
      simp only [true_and]
      exact deliver_sublist _ _ _ _ _ _ hd

theorem before_check_fields {α β : Type} (env : Env1 α β) (s : Master1 β) :
    (before_check env s).i = s.i ∧ (before_check env s).sent = s.sent ∧
    (before_check env s).process_num = s.process_num ∧
    (before_check env s).pending.Sublist s.pending := by
  obtain ⟨h1, h2, h3, _, _, h6⟩ := poll_block_fields env s
  unfold before_check count_live liveness_check
  by_cases hdue : env.check_due (poll_block env s).i = true
  · simp only [hdue, if_true]
    exact ⟨h1, h2, h3, h6⟩
  · simp only [hdue]
    exact ⟨h1, h2, h3, h6⟩

theorem inv1_before_check {α β : Type} (env : Env1 α β) (s : Master1 β) (h : Inv1 env s) :
    Inv1 env (before_check env s) := by
  obtain ⟨h1, h2, _, h4⟩ := before_check_fields env s
  refine ⟨by rw [h1]; exact h.i_le, by rw [h1, h2]; exact h.sent_chunks,
    by rw [h2]; exact h.sent_tags, ?_, ?_⟩
  · rw [h2]
    exact (h4.map _).trans h.pend_sub
  · intro p hp
    exact h.pend_reply p (h4.subset hp)

theorem reply_work_1 {α β : Type} (f : α → β) (k : Nat) (w : α) :
    (worker_body_1 f (FailDraw.ret 0) (k : Int) w).reply = some ((k : Int), f w) := by
  have hk : (k : Int) ≥ 0 := Int.natCast_nonneg k
  simp [worker_body_1, hk, F_ISend, WorkerStep.reply]

theorem inv1_send_chunk {α β : Type} (env : Env1 α β) (s : Master1 β) (p : Nat) (w : α)
    (h : Inv1 env s) (hw : env.api.work_chunks[s.i]? = some w) :
    Inv1 env (send_chunk env p w s) := by
  have hlt : s.i < env.api.work_chunks.length := by
    by_contra hc
    rw [List.getElem?_eq_none (not_lt.mp hc)] at hw
    simp at hw
  refine ⟨hlt, ?_, ?_, ?_, ?_⟩
  · simp [send_chunk, List.range_succ, h.sent_chunks]
  · intro m hm
    simp only [send_chunk] at hm
    rcases List.mem_append.mp hm with hm | hm
    · exact h.sent_tags m hm
    · simp at hm; subst hm; rfl
  · simp only [send_chunk, List.map_append, List.map_cons, List.map_nil]
    exact List.Sublist.append h.pend_sub (List.Sublist.refl _)
  · intro q hq
    simp only [send_chunk] at hq
    rcases List.mem_append.mp hq with hq | hq
    · exact h.pend_reply q hq
    · simp only [List.mem_singleton] at hq
      subst hq
      exact ⟨env.api.do_one_work w, reply_work_1 _ _ _⟩

theorem inv1_init {α β : Type} (env : Env1 α β) : Inv1 env (init1 env) := by
  refine ⟨by simp [init1], by simp [init1], by simp [init1], by simp [init1],
    by simp [init1]⟩

/-- A property of the master state that the statements of an iteration preserve holds at every
position of the distribution loop. -/
theorem distribute_induction {α β : Type} (env : Env1 α β) (P : Master1 β → Prop)
    (hpre : ∀ s, P s → P (before_check env s))
    (hsend : ∀ s p w, P s → env.api.work_chunks[s.i]? = some w →
      select env s.worker_status (env.sz + 1) s.process_num = some p →
      P (send_chunk env p w s)) :
    ∀ n s, P s → P (distribute env n s).state := by
  intro n
  induction n with
  | zero => intro s hs; exact hs
  | succ n ih =>
    intro s hs
    unfold distribute
    cases hw : env.api.work_chunks[s.i]? with
    | none => exact hs
    | some w =>
      simp only
      unfold distribute_body
      simp only
      by_cases hlive : (before_check env s).we_have_live_workers = 0
      · rw [if_pos hlive]
        exact hpre s hs
      · rw [if_neg hlive]
        cases hsel : select env (before_check env s).worker_status (env.sz + 1)
            (before_check env s).process_num with
        | none => exact hpre s hs
        | some p =>
          simp only
          apply ih
          apply hsend _ p w (hpre s hs) _ hsel
          rw [(before_check_fields env s).1]
          exact hw

theorem inv1_distribute {α β : Type} (env : Env1 α β) (n : Nat) :
    Inv1 env (distribute env n (init1 env)).state :=
  distribute_induction env (Inv1 env) (inv1_before_check env)
    (fun s p w hs hw _ => inv1_send_chunk env s p w hs hw) n _ (inv1_init env)

/-- C9: the `k`-th work message the master of `MW_Run_1` sends in the distribution loop is
chunk `k`, and every work message it sends carries as tag the index of its chunk, an index
below `N`; the worker loop of `MW_Run_1`
classifies that tag as work (it invokes `do_one_work`, it does not end the loop), whatever
`random_fail()` does, and the tag it passes to `F_ISend` is that index again; `DONE_TAG` is the
tag of no chunk. -/
theorem static_tag_round_trip {α β : Type} (env : Env1 α β) (n : Nat) (m : Sent)
    (draw : FailDraw) (w : α) (hm : m ∈ (distribute env n (init1 env)).state.sent) :
    (distribute env n (init1 env)).state.sent.map Sent.chunk
      = List.range (distribute env n (init1 env)).state.i ∧
    m.tag = (m.chunk : Int) ∧ m.chunk < env.api.work_chunks.length ∧
    (worker_body_1 env.api.do_one_work draw m.tag w).computed = true ∧
    (worker_body_1 env.api.do_one_work draw m.tag w).isend_tag = some (m.chunk : Int) ∧
    worker_body_1 env.api.do_one_work draw m.tag w ≠ WorkerStep.terminated ∧
    m.tag ≠ DONE_TAG := by
  have hinv := inv1_distribute env n
  have htag := hinv.sent_tags m hm
  have hchunk : m.chunk < env.api.work_chunks.length := by
    have hmem : m.chunk ∈ (distribute env n (init1 env)).state.sent.map Sent.chunk :=
      List.mem_map_of_mem _ hm
    rw [hinv.sent_chunks, List.mem_range] at hmem
    exact lt_of_lt_of_le hmem hinv.i_le
  have hk : (m.chunk : Int) ≥ 0 := Int.natCast_nonneg _
  refine ⟨hinv.sent_chunks, htag, hchunk, ?_, ?_, ?_, ?_⟩
  · rw [htag]
    cases draw with
    | ret v => by_cases hv : v = 0 <;> simp [worker_body_1, hk, F_ISend, WorkerStep.computed, hv]
    | exit_program => simp [worker_body_1, hk, F_ISend, WorkerStep.computed]
  · rw [htag]
    cases draw with
    | ret v => by_cases hv : v = 0 <;> simp [worker_body_1, hk, F_ISend, WorkerStep.isend_tag, hv]
    | exit_program => simp [worker_body_1, hk, F_ISend, WorkerStep.isend_tag]
  · rw [htag]
    cases draw with
    | ret v => by_cases hv : v = 0 <;> simp [worker_body_1, hk, F_ISend, hv]
    | exit_program => simp [worker_body_1, hk, F_ISend]
  · rw [htag]
    unfold DONE_TAG
    omega

/-- Witness of C9: the second message sent when three chunks are distributed to two workers. -/
theorem static_tag_round_trip_witness :
    Sent.mk 2 1 1 ∈ (distribute (quiet_env 3 2 1 (fun _ => 0) [0, 1, 2]) 3
        (init1 (quiet_env 3 2 1 (fun _ => 0) [0, 1, 2]))).state.sent ∧
    ((distribute (quiet_env 3 2 1 (fun _ => 0) [0, 1, 2]) 3
        (init1 (quiet_env 3 2 1 (fun _ => 0) [0, 1, 2]))).state.sent.map Sent.chunk
      = List.range (distribute (quiet_env 3 2 1 (fun _ => 0) [0, 1, 2]) 3
        (init1 (quiet_env 3 2 1 (fun _ => 0) [0, 1, 2]))).state.i ∧
    (Sent.mk 2 1 1).tag = (((Sent.mk 2 1 1).chunk : Nat) : Int) ∧
    (Sent.mk 2 1 1).chunk < (quiet_env 3 2 1 (fun _ => 0) [0, 1, 2]).api.work_chunks.length ∧
    (worker_body_1 (quiet_env 3 2 1 (fun _ => 0) [0, 1, 2]).api.do_one_work (FailDraw.ret 0)
        (Sent.mk 2 1 1).tag 1).computed = true ∧
    (worker_body_1 (quiet_env 3 2 1 (fun _ => 0) [0, 1, 2]).api.do_one_work (FailDraw.ret 0)
        (Sent.mk 2 1 1).tag 1).isend_tag = some (((Sent.mk 2 1 1).chunk : Nat) : Int) ∧
    worker_body_1 (quiet_env 3 2 1 (fun _ => 0) [0, 1, 2]).api.do_one_work (FailDraw.ret 0)
        (Sent.mk 2 1 1).tag 1 ≠ WorkerStep.terminated ∧
    (Sent.mk 2 1 1).tag ≠ DONE_TAG) :=
  ⟨by decide, static_tag_round_trip (quiet_env 3 2 1 (fun _ => 0) [0, 1, 2]) 3 (Sent.mk 2 1 1)
    (FailDraw.ret 0) 1 (by decide)⟩

/-! ## The worker loops on tags that are neither work nor termination -/

theorem select_none_of_all_zero {α β : Type} (env : Env1 α β) (ws : List Int)
    (hz : ∀ q, 1 ≤ q → q < env.sz → read_status env ws q = 0) :
    ∀ fuel p, 1 ≤ p → p < env.sz → select env ws fuel p = none := by
  intro fuel
  induction fuel with
  | zero => intro p _ _; rfl
  | succ fuel ih =>
    intro p hp1 hp2
    unfold select
    rw [if_pos (hz p hp1 hp2)]
    by_cases hwrap : p + 1 = env.sz
    · rw [if_pos hwrap]
      exact ih 1 (le_refl 1) (by omega)
    · rw [if_neg hwrap]
      exact ih (p + 1) (by omega) (by omega)

theorem select_none_reads {α β : Type} (env : Env1 α β) (ws : List Int) (hsz : 2 ≤ env.sz) :
    ∀ fuel p, 1 ≤ p → p < env.sz → select env ws fuel p = none →
      ∀ j, j < fuel → read_status env ws (1 + (p - 1 + j) % (env.sz - 1)) = 0 := by
  intro fuel
  induction fuel with
  | zero => intro p _ _ _ j hj; omega
  | succ fuel ih =>
    intro p hp1 hp2 h j hj
    unfold select at h
    by_cases hr : read_status env ws p = 0
    · rw [if_pos hr] at h
      cases j with
      | zero =>
        rw [Nat.add_zero, Nat.mod_eq_of_lt (by omega)]
        have : 1 + (p - 1) = p := by omega
        rw [this]; exact hr
      | succ j =>
        by_cases hwrap : p + 1 = env.sz
        · rw [if_pos hwrap] at h
          have := ih 1 (le_refl 1) (by omega) h j (by omega)
          have e : p - 1 + (j + 1) = j + (env.sz - 1) := by omega
          rw [e, Nat.add_mod_right]
          simpa using this
        · rw [if_neg hwrap] at h
          have := ih (p + 1) (by omega) (by omega) h j (by omega)
          have e : p - 1 + (j + 1) = p + 1 - 1 + j := by omega
          rw [e]; exact this
    · rw [if_neg hr] at h
      simp at h

/-- A run of the loop of line 331 that has not ended after `sz + 1` tests never ends. -/
theorem select_fuel_adequate {α β : Type} (env : Env1 α β) (ws : List Int) (hsz : 2 ≤ env.sz)
    (p : Nat) (hp1 : 1 ≤ p) (hp2 : p < env.sz)
    (h : select env ws (env.sz + 1) p = none) : ∀ fuel, select env ws fuel p = none := by
  intro fuel
  apply select_none_of_all_zero env ws _ fuel p hp1 hp2
  intro q hq1 hq2
  have hW : 0 < env.sz - 1 := by omega
  have hj : (q - 1 + (env.sz - 1) - (p - 1)) % (env.sz - 1) < env.sz + 1 := by
    have := Nat.mod_lt (q - 1 + (env.sz - 1) - (p - 1)) hW
    omega
  have key := select_none_reads env ws hsz _ p hp1 hp2 h _ hj
  have e : (p - 1 + (q - 1 + (env.sz - 1) - (p - 1)) % (env.sz - 1)) % (env.sz - 1) = q - 1 := by
    rw [Nat.add_mod_mod]
    have : p - 1 + (q - 1 + (env.sz - 1) - (p - 1)) = q - 1 + (env.sz - 1) := by omega
    rw [this, Nat.add_mod_right, Nat.mod_eq_of_lt (by omega)]
  rw [e] at key
  have : 1 + (q - 1) = q := by omega
  rw [this] at key
  exact key

theorem collect_at_head_j {α β : Type} (env : Env1 α β) :
    ∀ (n j : Nat) (ra : List β) (s : Master1 β) (j1 : Nat) (ra1 : List β) (s1 : Master1 β),
      collect env n j ra s = Coll.at_head j1 ra1 s1 → s.i ≤ j + n → j ≤ s.i →
        j1 = s.i ∧ ra1.length = ra.length + (s.i - j) := by
  intro n
  induction n with
  | zero =>
    intro j ra s j1 ra1 s1 h hle hj
    simp only [collect, Coll.at_head.injEq] at h
    obtain ⟨rfl, rfl, _⟩ := h
    exact ⟨by omega, by omega⟩
  | succ n ih =>
    intro j ra s j1 ra1 s1 h hle hj
    unfold collect at h
    by_cases hlt : j < s.i
    · rw [if_pos hlt] at h
      cases hd : deliver (some env.api.RESULT_TAG) (env.arrival j) s.pending with
      | none => rw [hd] at h; simp at h
      | some v =>
        obtain ⟨m, r, rest⟩ := v
        rw [hd] at h
        simp only at h
        obtain ⟨h1, h2⟩ := ih (j + 1) (ra ++ [r]) _ j1 ra1 s1 h
          (by simp only; omega) (by simp only; omega)
        simp only [List.length_append, List.length_singleton] at h1 h2
        exact ⟨h1, by omega⟩
    · rw [if_neg hlt] at h
      simp only [Coll.at_head.injEq] at h
      obtain ⟨rfl, rfl, _⟩ := h
      exact ⟨by omega, by omega⟩

/-! ## The static scheduler: the live-worker check and the choice of the worker -/

/-- C6 at the run with two workers and two chunks in which both workers are marked dead
between iteration 0 and the check of iteration 1: when the check of iteration 1 runs, the table
is `[0, 0]` and `we_have_live_workers` is 2 (the 2 of iteration 0 plus 0), so the master does
not leave at lines 321-325; if the word read past the table is non-zero it goes on to send
chunk 1 to worker 2, and if that word is 0 it stays in the loop of line 331.  In neither case
does it abort at the check. -/
theorem live_check_misses_later_deaths :
    (before_check (env_all_die 1)
        (distribute (env_all_die 1) 1 (init1 (env_all_die 1))).state).worker_status = [0, 0] ∧
    (before_check (env_all_die 1)
        (distribute (env_all_die 1) 1 (init1 (env_all_die 1))).state).we_have_live_workers = 2 ∧
    (distribute (env_all_die 1) 2 (init1 (env_all_die 1))).state.sent
      = [Sent.mk 1 0 0, Sent.mk 2 1 1] ∧
    MW_Run_1_master (env_all_die 1) ≠ Outcome1.all_workers_dead ∧
    MW_Run_1_master (env_all_die 0) = Outcome1.select_spins := by
  decide

/-- C10 at three inputs.  (a) Two workers, worker 1 marked dead (table `[0, 1]`), rotation
pointer 1: the loop of line 331 reads entry 1, the record of worker 2, finds it alive and chunk
0 is sent to worker 1, whose own record is dead.  (b) One worker, alive, and a 0 in the word
past the table: the loop of line 331 reads that word for worker 1 and never ends, so chunk 0 is
not sent to worker `1 + (0 mod 1)`.  (c) Two workers, both alive, and a 0 in the word past the
table: chunk 1 is sent to worker 1, not to worker `1 + (1 mod 2) = 2`. -/
theorem select_reads_next_record :
    ((before_check env_first_dies (init1 env_first_dies)).worker_status = [0, 1] ∧
      select env_first_dies [0, 1] 4 1 = some 1 ∧
      (distribute env_first_dies 1 (init1 env_first_dies)).state.sent = [Sent.mk 1 0 0]) ∧
    MW_Run_1_master (quiet_env 2 0 0 (fun _ => 0) [0]) = Outcome1.select_spins ∧
    (distribute (quiet_env 3 0 0 (fun _ => 0) [0, 1]) 2
        (init1 (quiet_env 3 0 0 (fun _ => 0) [0, 1]))).state.sent
      = [Sent.mk 1 0 0, Sent.mk 1 1 1] := by
  decide

/-- C8, counterexample: three chunks, two workers, no worker dead, no result received during
distribution.  At the end of the distribution loop the three chunks are unanswered and two of
them, chunks 0 and 2, are at worker 1 (with a 1 in the word read past the liveness table; with
a 0 there, all three are at worker 1). -/
theorem static_two_outstanding :
    (distribute (quiet_env 3 2 1 (fun _ => 0) [0, 1, 2]) 3
        (init1 (quiet_env 3 2 1 (fun _ => 0) [0, 1, 2]))).state.sent
      = [Sent.mk 1 0 0, Sent.mk 2 1 1, Sent.mk 1 2 2] ∧
    (distribute (quiet_env 3 2 1 (fun _ => 0) [0, 1, 2]) 3
        (init1 (quiet_env 3 2 1 (fun _ => 0) [0, 1, 2]))).state.pending.length = 3 ∧
    outstanding (distribute (quiet_env 3 2 1 (fun _ => 0) [0, 1, 2]) 3
        (init1 (quiet_env 3 2 1 (fun _ => 0) [0, 1, 2]))).state.pending 1 = 2 ∧
    ¬ (∀ worker, outstanding (distribute (quiet_env 3 2 1 (fun _ => 0) [0, 1, 2]) 3
        (init1 (quiet_env 3 2 1 (fun _ => 0) [0, 1, 2]))).state.pending worker ≤ 1) ∧
    outstanding (distribute (quiet_env 3 2 0 (fun _ => 0) [0, 1, 2]) 3
        (init1 (quiet_env 3 2 0 (fun _ => 0) [0, 1, 2]))).state.pending 1 = 3 := by
  refine ⟨by decide, by decide, by decide, ?_, by decide⟩
  intro h
  exact absurd (h 1) (by decide)

/-! ## The static scheduler: the collection loop -/

theorem inv1_distribute_from {α β : Type} (env : Env1 α β) (n : Nat) (s : Master1 β)
    (h : Inv1 env s) : Inv1 env (distribute env n s).state :=
  distribute_induction env (Inv1 env) (inv1_before_check env)
    (fun s p w hs hw _ => inv1_send_chunk env s p w hs hw) n s h

theorem distribute_at_head_i {α β : Type} (env : Env1 α β) :
    ∀ (n : Nat) (s s1 : Master1 β), Inv1 env s → distribute env n s = Dist.at_head s1 →
      env.api.work_chunks.length ≤ n + s.i → s1.i = env.api.work_chunks.length := by
  intro n
  induction n with
  | zero =>
    intro s s1 hinv h hle
    simp only [distribute, Dist.at_head.injEq] at h
    subst h
    have := hinv.i_le
    omega
  | succ n ih =>
    intro s s1 hinv h hle
    unfold distribute at h
    cases hw : env.api.work_chunks[s.i]? with
    | none =>
      rw [hw] at h
      simp only [Dist.at_head.injEq] at h
      subst h
      have := List.getElem?_eq_none_iff.mp hw
      have := hinv.i_le
      omega
    | some w =>
      rw [hw] at h
      simp only at h
      unfold distribute_body at h
      simp only at h
      by_cases hlive : (before_check env s).we_have_live_workers = 0
      · rw [if_pos hlive] at h
        simp at h
      · rw [if_neg hlive] at h
        cases hsel : select env (before_check env s).worker_status (env.sz + 1)
            (before_check env s).process_num with
        | none => rw [hsel] at h; simp at h
        | some p =>
          rw [hsel] at h
          simp only at h
          have hi : (before_check env s).i = s.i := (before_check_fields env s).1
          have hw1 : env.api.work_chunks[(before_check env s).i]? = some w := by
            rw [hi]; exact hw
          apply ih _ s1 (inv1_send_chunk env _ p w (inv1_before_check env s hinv) hw1) h
          simp only [send_chunk, hi]
          omega

theorem result_for_tag {β : Type} (p : Pending β) (c want : Int) (r0 r : β)
    (hreply : p.reply = some (c, r0)) (h : p.result_for (some want) = some r) : c = want := by
  unfold Pending.result_for at h
  rw [hreply] at h
  simp only at h
  by_cases hc : c = want
  · exact hc
  · simp [hc] at h

/-- When the unanswered chunks are pairwise distinct and the result of chunk `k` carries tag
`k`, the `MPI_Recv` of line 370, which asks for the tag `RESULT_TAG`, can be completed at most
once: the collection loop does not get through two iterations. -/
theorem collect_blocks {α β : Type} (env : Env1 α β) (n : Nat) (result_array : List β)
    (s : Master1 β) (hi : 2 ≤ s.i)
    (hreply : ∀ p ∈ s.pending, ∃ r, p.reply = some ((p.chunk : Int), r))
    (hnodup : (s.pending.map Pending.chunk).Nodup) :
    ∃ j ra s1, collect env (n + 2) 0 result_array s = Coll.recv_blocks j ra s1 := by
  unfold collect
  rw [if_pos (by omega)]
  cases hd : deliver (some env.api.RESULT_TAG) (env.arrival 0) s.pending with
  | none => exact ⟨_, _, _, rfl⟩
  | some v =>
    obtain ⟨m, r, rest⟩ := v
    simp only
    unfold collect
    rw [if_pos (by simpa using hi)]
    obtain ⟨hr, hperm⟩ := deliver_some _ _ _ _ _ _ hd
    have hm : m ∈ s.pending := hperm.symm.subset (List.mem_cons_self _ _)
    cases hd2 : deliver (some env.api.RESULT_TAG) (env.arrival (0 + 1)) rest with
    | none => exact ⟨_, _, _, rfl⟩
    | some v2 =>
      exfalso
      obtain ⟨m2, r2, rest2⟩ := v2
      obtain ⟨hr2, hperm2⟩ := deliver_some _ _ _ _ _ _ hd2
      have hm2 : m2 ∈ rest := hperm2.symm.subset (List.mem_cons_self _ _)
      have hm2p : m2 ∈ s.pending := hperm.symm.subset (List.mem_cons_of_mem _ hm2)
      obtain ⟨q, hq⟩ := hreply m hm
      obtain ⟨q2, hq2⟩ := hreply m2 hm2p
      have e1 := result_for_tag m _ _ _ _ hq hr
      have e2 := result_for_tag m2 _ _ _ _ hq2 hr2
      have hchunk : m.chunk = m2.chunk := by
        have : (m.chunk : Int) = (m2.chunk : Int) := by rw [e1, e2]
        exact_mod_cast this
      have hnd : (m.chunk :: rest.map Pending.chunk).Nodup := by
        have := (hperm.map Pending.chunk).nodup_iff.mp hnodup
        simpa using this
      apply (List.nodup_cons.mp hnd).1
      rw [hchunk]
      exact List.mem_map_of_mem _ hm2

/-- With two or more chunks the master of `MW_Run_1` never reaches the call of
`report_results`: the workers tag the result of chunk `k` with `k`, and the collection loop
receives with the one tag `RESULT_TAG`. -/
theorem MW_Run_1_never_reports {α β : Type} (env : Env1 α β)
    (hN : 2 ≤ env.api.work_chunks.length) (i : Nat) (result_array : List β) :
    MW_Run_1_master env ≠ Outcome1.reported i result_array := by
  unfold MW_Run_1_master
  cases hdist : distribute env env.api.work_chunks.length (init1 env) with
  | all_workers_dead s => simp
  | select_spins s => simp
  | at_head s =>
    simp only
    have hinv : Inv1 env s := by
      have := inv1_distribute env env.api.work_chunks.length
      rw [hdist] at this
      exact this
    have hi : s.i = env.api.work_chunks.length :=
      distribute_at_head_i env _ _ s (inv1_init env) hdist (by omega)
    have hnodup : (s.pending.map Pending.chunk).Nodup := by
      have hsub := hinv.pend_sub.map Prod.snd
      simp only [List.map_map] at hsub
      have hsent : (s.sent.map (Prod.snd ∘ fun m => (m.dest, m.chunk))) = List.range s.i := by
        rw [← hinv.sent_chunks]; rfl
      rw [hsent] at hsub
      exact (List.nodup_range s.i).sublist hsub
    obtain ⟨k, hk⟩ : ∃ k, s.i = k + 2 := ⟨s.i - 2, by omega⟩
    obtain ⟨j, ra, s1, hcol⟩ := collect_blocks env k [] s (by omega) hinv.pend_reply hnodup
    rw [hk, hcol]
    simp

/-- C7 at the example of the claim, `N = 4`, `W = 2`, `do_one_work` = ten times the item, no
failure: whatever the value of `RESULT_TAG`, the word past the liveness table and the order of
arrival, the master does not hand `[0, 10, 20, 30]` (nor anything else) to `report_results`.
With `RESULT_TAG = 1` the one result it receives is that of chunk 1, and it is stored at
position 0, the position of its arrival. -/
theorem static_example_never_reported (RESULT_TAG beyond : Int) (arrival : Nat → Nat) :
    MW_Run_1_master (quiet_env 3 RESULT_TAG beyond arrival [0, 1, 2, 3])
      ≠ Outcome1.reported 4 [0, 10, 20, 30] ∧
    (∀ i result_array, MW_Run_1_master (quiet_env 3 RESULT_TAG beyond arrival [0, 1, 2, 3])
      ≠ Outcome1.reported i result_array) ∧
    MW_Run_1_master (quiet_env 3 1 1 (fun _ => 0) [0, 1, 2, 3]) = Outcome1.recv_blocks ∧
    (∃ s, collect (quiet_env 3 1 1 (fun _ => 0) [0, 1, 2, 3]) 4 0 []
        (distribute (quiet_env 3 1 1 (fun _ => 0) [0, 1, 2, 3]) 4
          (init1 (quiet_env 3 1 1 (fun _ => 0) [0, 1, 2, 3]))).state
      = Coll.recv_blocks 1 [10] s) := by
  have h := MW_Run_1_never_reports (quiet_env 3 RESULT_TAG beyond arrival [0, 1, 2, 3])
    (by simp [quiet_env])
  exact ⟨h 4 [0, 10, 20, 30], h, by decide, ⟨_, rfl⟩⟩

/-! ## The static scheduler: round robin while every worker is alive -/

theorem succ_mod_cases (W i : Nat) (hW : 0 < W) :
    (i + 1) % W = if i % W + 1 = W then 0 else i % W + 1 := by
  have ha := Nat.mod_lt i hW
  have hdiv := Nat.div_add_mod i W
  by_cases h : i % W + 1 = W
  · rw [if_pos h]
    have : i + 1 = W * (i / W + 1) := by rw [Nat.mul_add, Nat.mul_one]; omega
    rw [this, Nat.mul_mod_right]
  · rw [if_neg h]
    have : i + 1 = W * (i / W) + (i % W + 1) := by omega
    rw [this, Nat.mul_add_mod, Nat.mod_eq_of_lt (by omega)]

theorem read_status_alive {α β : Type} (env : Env1 α β) (hb : env.beyond ≠ 0) (n k : Nat) :
    read_status env (List.replicate n 1) k ≠ 0 := by
  unfold read_status
  rw [List.getD_eq_getElem?_getD, List.getElem?_replicate]
  by_cases h : k < n
  · simp [h]
  · simpa [h] using hb

theorem select_alive {α β : Type} (env : Env1 α β) (hb : env.beyond ≠ 0) (n fuel p : Nat) :
    select env (List.replicate n 1) (fuel + 1) p = some p := by
  unfold select
  rw [if_neg (read_status_alive env hb n p)]

theorem wrap_int32_of_range (x : Int) (h1 : -2147483648 ≤ x) (h2 : x < 2147483648) :
    wrap_int32 x = x := by
  unfold wrap_int32
  omega

theorem foldl_count_live {α β : Type} (env : Env1 α β) (n : Nat) :
    ∀ (l : List Nat) (a : Int), (∀ j ∈ l, j < n) → 0 ≤ a → a + (l.length : Int) < 2147483648 →
      List.foldl (fun acc j => wrap_int32 (acc + read_status env (List.replicate n 1) j)) a l
        = a + (l.length : Int) := by
  intro l
  induction l with
  | nil => intro a _ _ _; simp
  | cons x xs ih =>
    intro a h ha hb
    have hx : x < n := h x (List.mem_cons_self _ _)
    have hread : read_status env (List.replicate n 1) x = 1 := by
      unfold read_status
      rw [List.getD_eq_getElem?_getD, List.getElem?_replicate]
      simp [hx]
    simp only [List.length_cons, Nat.cast_add, Nat.cast_one] at hb
    rw [List.foldl_cons, hread, wrap_int32_of_range _ (by omega) (by omega),
      ih _ (fun j hj => h j (List.mem_cons_of_mem _ hj)) (by omega) (by omega)]
    simp only [List.length_cons, Nat.cast_add, Nat.cast_one]
    omega

theorem roundrobin_before_check {α β : Type} (env : Env1 α β)
    (hcheck : ∀ i ws, env.check_worker_statuses i ws = ws) (s : Master1 β)
    (h : RoundRobin env s)
    (hcount : s.we_have_live_workers = ((s.i * (env.sz - 1) : Nat) : Int))
    (hrange : (s.i + 1) * (env.sz - 1) < 2 ^ 31) :
    RoundRobin env (before_check env s) ∧
      (before_check env s).we_have_live_workers
        = (((s.i + 1) * (env.sz - 1) : Nat) : Int) := by
  obtain ⟨h1, h2, h3, h4, h5, _⟩ := poll_block_fields env s
  have hws : (liveness_check env (poll_block env s)).worker_status
      = List.replicate (env.sz - 1) 1 := by
    unfold liveness_check
    by_cases hdue : env.check_due (poll_block env s).i = true
    · rw [if_pos hdue]
      simp only [hcheck]
      rw [h4]; exact h.table
    · rw [if_neg hdue, h4]; exact h.table
  have hrest : (liveness_check env (poll_block env s)).i = s.i ∧
      (liveness_check env (poll_block env s)).sent = s.sent ∧
      (liveness_check env (poll_block env s)).process_num = s.process_num ∧
      (liveness_check env (poll_block env s)).we_have_live_workers
        = s.we_have_live_workers := by
    unfold liveness_check
    by_cases hdue : env.check_due (poll_block env s).i = true
    · rw [if_pos hdue]
      exact ⟨h1, h2, h3, h5⟩
    · rw [if_neg hdue]
      exact ⟨h1, h2, h3, h5⟩
  obtain ⟨g1, g2, g3, g5⟩ := hrest
  have hbound : ((s.i * (env.sz - 1) : Nat) : Int) + ((env.sz - 1 : Nat) : Int)
      < 2147483648 := by
    have : s.i * (env.sz - 1) + (env.sz - 1) < 2147483648 := by
      have e : (s.i + 1) * (env.sz - 1) = s.i * (env.sz - 1) + (env.sz - 1) := by
        rw [Nat.add_mul, Nat.one_mul]
      have h31 : (2 : Nat) ^ 31 = 2147483648 := by norm_num
      omega
    exact_mod_cast this
  have hlive : (before_check env s).we_have_live_workers
      = (((s.i + 1) * (env.sz - 1) : Nat) : Int) := by
    unfold before_check count_live
    simp only
    rw [hws, g5, hcount,
      foldl_count_live env (env.sz - 1) _ _ (fun j hj => List.mem_range.mp hj)
        (Int.natCast_nonneg _) (by rw [List.length_range]; exact hbound),
      List.length_range]
    rw [Nat.add_mul, Nat.one_mul]
    push_cast
    rfl
  refine ⟨⟨?_, ?_, ?_⟩, hlive⟩
  · unfold before_check count_live
    exact hws
  · unfold before_check count_live
    simp only
    rw [g3, g1]; exact h.pointer
  · unfold before_check count_live
    simp only
    rw [g2]; exact h.dest

theorem roundrobin_send_chunk {α β : Type} (env : Env1 α β) (hsz : 2 ≤ env.sz)
    (s : Master1 β) (w : α) (h : RoundRobin env s) :
    RoundRobin env (send_chunk env s.process_num w s) := by
  have hW : 0 < env.sz - 1 := by omega
  refine ⟨h.table, ?_, ?_⟩
  · simp only [send_chunk]
    rw [h.pointer, succ_mod_cases _ _ hW]
    have := Nat.mod_lt s.i hW
    by_cases hc : s.i % (env.sz - 1) + 1 = env.sz - 1
    · rw [if_pos (by omega), if_pos hc]
    · rw [if_neg (by omega), if_neg hc]
      omega
  · intro m hm
    simp only [send_chunk] at hm
    rcases List.mem_append.mp hm with hm | hm
    · exact h.dest m hm
    · simp only [List.mem_singleton] at hm
      subst hm
      exact h.pointer

theorem roundrobin_init {α β : Type} (env : Env1 α β) : RoundRobin env (init1 env) := by
  refine ⟨rfl, by simp [init1], by simp [init1]⟩

theorem roundrobin_distribute {α β : Type} (env : Env1 α β) (hsz : 2 ≤ env.sz)
    (hb : env.beyond ≠ 0) (hcheck : ∀ i ws, env.check_worker_statuses i ws = ws)
    (hrange : env.api.work_chunks.length * (env.sz - 1) < 2 ^ 31) :
    ∀ (n : Nat) (s : Master1 β), RoundRobin env s →
      s.we_have_live_workers = ((s.i * (env.sz - 1) : Nat) : Int) →
      ∃ s1, distribute env n s = Dist.at_head s1 ∧ RoundRobin env s1 ∧
        s1.we_have_live_workers = ((s1.i * (env.sz - 1) : Nat) : Int) := by
  intro n
  induction n with
  | zero => intro s hs hc; exact ⟨s, rfl, hs, hc⟩
  | succ n ih =>
    intro s hs hc
    unfold distribute
    cases hw : env.api.work_chunks[s.i]? with
    | none => exact ⟨s, rfl, hs, hc⟩
    | some w =>
      simp only
      unfold distribute_body
      simp only
      have hlt : s.i < env.api.work_chunks.length := by
        by_contra hcon
        rw [List.getElem?_eq_none (not_lt.mp hcon)] at hw
        simp at hw
      have hr : (s.i + 1) * (env.sz - 1) < 2 ^ 31 :=
        lt_of_le_of_lt (Nat.mul_le_mul_right _ hlt) hrange
      obtain ⟨hrr, hlive⟩ := roundrobin_before_check env hcheck s hs hc hr
      have hne : (before_check env s).we_have_live_workers ≠ 0 := by
        rw [hlive]
        have : 0 < (s.i + 1) * (env.sz - 1) := Nat.mul_pos (by omega) (by omega)
        exact_mod_cast this.ne'
      rw [if_neg hne, hrr.table, select_alive env hb]
      simp only
      apply ih _ (roundrobin_send_chunk env hsz _ w hrr)
      simp only [send_chunk]
      rw [hlive, (before_check_fields env s).1]

theorem countP_range_eq_count (p : Nat → Prop) [DecidablePred p] (n : Nat) :
    (List.range n).countP (fun k => decide (p k)) = Nat.count p n := by
  induction n with
  | zero => simp
  | succ n ih =>
    rw [List.range_succ, List.countP_append, ih, Nat.count_succ]
    by_cases h : p n <;> simp [h]

theorem ceil_bound (n W v : Nat) (hW : 0 < W) :
    n / W + (if v % W < n % W then 1 else 0) ≤ (n + W - 1) / W := by
  have hdiv := Nat.div_add_mod n W
  by_cases h : v % W < n % W
  · rw [if_pos h]
    rw [Nat.le_div_iff_mul_le hW, Nat.add_mul, Nat.one_mul]
    have : n / W * W = W * (n / W) := Nat.mul_comm _ _
    omega
  · rw [if_neg h]
    simp only [Nat.add_zero]
    exact Nat.div_le_div_right (by omega)

theorem count_mod_le (n W v : Nat) (hW : 0 < W) :
    (List.range n).countP (fun k => decide (k ≡ v [MOD W])) ≤ (n + W - 1) / W := by
  rw [countP_range_eq_count, Nat.count_modEq_card n hW v]
  exact ceil_bound n W v hW

theorem collect_fields {α β : Type} (env : Env1 α β) :
    ∀ (n j : Nat) (result_array : List β) (s : Master1 β),
      (collect env n j result_array s).state.pending.Sublist s.pending ∧
      (collect env n j result_array s).state.sent = s.sent ∧
      (collect env n j result_array s).state.i = s.i := by
  intro n
  induction n with
  | zero => intro j ra s; exact ⟨List.Sublist.refl _, rfl, rfl⟩
  | succ n ih =>
    intro j ra s
    unfold collect
    by_cases hj : j < s.i
    · rw [if_pos hj]
      cases hd : deliver (some env.api.RESULT_TAG) (env.arrival j) s.pending with
      | none => exact ⟨List.Sublist.refl _, rfl, rfl⟩
      | some v =>
        obtain ⟨m, r, rest⟩ := v
        simp only
        obtain ⟨h1, h2, h3⟩ := ih (j + 1) (ra ++ [r])
          { s with pending := rest, num_msgs := s.num_msgs + 1 }
        exact ⟨h1.trans (deliver_sublist _ _ _ _ _ _ hd), h2, h3⟩
    · rw [if_neg hj]
      exact ⟨List.Sublist.refl _, rfl, rfl⟩

/-- While chunk `k` goes to worker `1 + (k mod W)`, a worker has at most `⌈i / W⌉` of the `i`
chunks sent so far unanswered. -/
theorem outstanding_le {α β : Type} (env : Env1 α β) (hsz : 2 ≤ env.sz) (s : Master1 β)
    (pending : List (Pending β)) (hsub : pending.Sublist s.pending)
    (hinv : Inv1 env s) (hdest : ∀ m ∈ s.sent, m.dest = 1 + m.chunk % (env.sz - 1))
    (worker : Nat) :
    outstanding pending worker ≤ (s.i + (env.sz - 1) - 1) / (env.sz - 1) := by
  have hW : 0 < env.sz - 1 := by omega
  have h1 : outstanding pending worker
      = (pending.map (fun p => (p.worker, p.chunk))).countP
          (fun x => decide (x.1 = worker)) := by
    unfold outstanding
    rw [← List.countP_eq_length_filter, List.countP_map]
    rfl
  have h2 : (pending.map (fun p => (p.worker, p.chunk))).countP
        (fun x => decide (x.1 = worker))
      ≤ (s.sent.map (fun m => (m.dest, m.chunk))).countP
          (fun x => decide (x.1 = worker)) :=
    List.Sublist.countP_le _ ((hsub.map _).trans hinv.pend_sub)
  have h3 : (s.sent.map (fun m => (m.dest, m.chunk))).countP
        (fun x => decide (x.1 = worker))
      ≤ s.sent.countP (fun m => decide (m.chunk ≡ worker - 1 [MOD env.sz - 1])) := by
    rw [List.countP_map]
    apply List.countP_mono_left
    intro m hm hmw
    simp only [Function.comp_apply, decide_eq_true_eq] at hmw ⊢
    have hd := hdest m hm
    have hlt := Nat.mod_lt m.chunk hW
    have hw : worker - 1 = m.chunk % (env.sz - 1) := by omega
    unfold Nat.ModEq
    rw [hw, Nat.mod_mod]
  have h4 : s.sent.countP (fun m => decide (m.chunk ≡ worker - 1 [MOD env.sz - 1]))
      = (List.range s.i).countP (fun k => decide (k ≡ worker - 1 [MOD env.sz - 1])) := by
    rw [← hinv.sent_chunks, List.countP_map]
    rfl
  rw [h1]
  refine le_trans h2 (le_trans h3 ?_)
  rw [h4]
  exact count_mod_le _ _ _ hW

theorem sent_round_robin {α β : Type} (env : Env1 α β) (s : Master1 β) (hinv : Inv1 env s)
    (hdest : ∀ m ∈ s.sent, m.dest = 1 + m.chunk % (env.sz - 1)) :
    s.sent = (List.range s.i).map (fun k => Sent.mk (1 + k % (env.sz - 1)) (k : Int) k) := by
  rw [← hinv.sent_chunks, List.map_map]
  conv_lhs => rw [← List.map_id s.sent]
  apply List.map_congr_left
  intro m hm
  obtain ⟨d, t, c⟩ := m
  have h1 := hdest _ hm
  have h2 := hinv.sent_tags _ hm
  simp only at h1 h2
  simp [h1, h2]

/-- C8, as amended.  While no worker is marked dead (`check_worker_statuses` leaves the table
as it is), the word read past the table is not 0, and `N * W < 2 ^ 31` (so that the `int`
`we_have_live_workers` does not overflow), the master of `MW_Run_1` with `W = sz - 1 ≥ 1`
workers does not abort and does not wait: it sends chunk `k` to worker `1 + (k mod W)`
with tag `k`, one chunk per iteration, whether or not results have been received.  In every
state of the distribution loop and of the collection loop each worker has at most `⌈N / W⌉`
chunks sent to it and not yet answered, and the collection loop sends nothing. -/
theorem static_round_robin_outstanding {α β : Type} (env : Env1 α β) (hsz : 2 ≤ env.sz)
    (hb : env.beyond ≠ 0) (hcheck : ∀ i ws, env.check_worker_statuses i ws = ws)
    (hrange : env.api.work_chunks.length * (env.sz - 1) < 2 ^ 31)
    (n k j worker : Nat) (result_array : List β) :
    (∃ s, distribute env env.api.work_chunks.length (init1 env) = Dist.at_head s ∧
      s.i = env.api.work_chunks.length ∧
      s.sent = (List.range env.api.work_chunks.length).map
        (fun c => Sent.mk (1 + c % (env.sz - 1)) (c : Int) c)) ∧
    (∃ s, distribute env n (init1 env) = Dist.at_head s ∧
      s.sent = (List.range s.i).map (fun c => Sent.mk (1 + c % (env.sz - 1)) (c : Int) c) ∧
      outstanding s.pending worker
        ≤ (env.api.work_chunks.length + (env.sz - 1) - 1) / (env.sz - 1) ∧
      outstanding (collect env k j result_array s).state.pending worker
        ≤ (env.api.work_chunks.length + (env.sz - 1) - 1) / (env.sz - 1) ∧
      (collect env k j result_array s).state.sent = s.sent) := by
  have hW : 0 < env.sz - 1 := by omega
  have key : ∀ m, ∃ s, distribute env m (init1 env) = Dist.at_head s ∧ Inv1 env s ∧
      RoundRobin env s := by
    intro m
    obtain ⟨s, hs, hrr, _⟩ := roundrobin_distribute env hsz hb hcheck hrange m _
      (roundrobin_init env) (by simp [init1])
    refine ⟨s, hs, ?_, hrr⟩
    have := inv1_distribute env m
    rw [hs] at this
    exact this
  have hmono : ∀ s : Master1 β, Inv1 env s →
      (s.i + (env.sz - 1) - 1) / (env.sz - 1)
        ≤ (env.api.work_chunks.length + (env.sz - 1) - 1) / (env.sz - 1) := by
    intro s hinv
    have := hinv.i_le
    exact Nat.div_le_div_right (by omega)
  refine ⟨?_, ?_⟩
  · obtain ⟨s, hs, hinv, hrr⟩ := key env.api.work_chunks.length
    have hi := distribute_at_head_i env _ _ s (inv1_init env) hs (by omega)
    refine ⟨s, hs, hi, ?_⟩
    rw [← hi]
    exact sent_round_robin env s hinv hrr.dest
  · obtain ⟨s, hs, hinv, hrr⟩ := key n
    obtain ⟨c1, c2, _⟩ := collect_fields env k j result_array s
    refine ⟨s, hs, sent_round_robin env s hinv hrr.dest, ?_, ?_, c2⟩
    · exact le_trans (outstanding_le env hsz s s.pending (List.Sublist.refl _) hinv hrr.dest
        worker) (hmono s hinv)
    · exact le_trans (outstanding_le env hsz s _ c1 hinv hrr.dest worker) (hmono s hinv)

/-- Witness of C8 as amended: three chunks, two workers, the state after the whole
distribution loop and after one turn of the collection loop, worker 1. -/
theorem static_round_robin_outstanding_witness :
    (2 ≤ env_three_chunks.sz ∧ env_three_chunks.beyond ≠ 0 ∧
      (∀ i ws, env_three_chunks.check_worker_statuses i ws = ws) ∧
      env_three_chunks.api.work_chunks.length * (env_three_chunks.sz - 1) < 2 ^ 31) ∧
    ((∃ s, distribute env_three_chunks env_three_chunks.api.work_chunks.length
          (init1 env_three_chunks) = Dist.at_head s ∧
      s.i = env_three_chunks.api.work_chunks.length ∧
      s.sent = (List.range env_three_chunks.api.work_chunks.length).map
        (fun c => Sent.mk (1 + c % (env_three_chunks.sz - 1)) (c : Int) c)) ∧
    (∃ s, distribute env_three_chunks 3 (init1 env_three_chunks) = Dist.at_head s ∧
      s.sent = (List.range s.i).map
        (fun c => Sent.mk (1 + c % (env_three_chunks.sz - 1)) (c : Int) c) ∧
      outstanding s.pending 1
        ≤ (env_three_chunks.api.work_chunks.length + (env_three_chunks.sz - 1) - 1)
            / (env_three_chunks.sz - 1) ∧
      outstanding (collect env_three_chunks 1 0 [] s).state.pending 1
        ≤ (env_three_chunks.api.work_chunks.length + (env_three_chunks.sz - 1) - 1)
            / (env_three_chunks.sz - 1) ∧
      (collect env_three_chunks 1 0 [] s).state.sent = s.sent)) :=
  ⟨⟨by decide, by decide, fun _ _ => rfl, by decide⟩,
    static_round_robin_outstanding env_three_chunks (by decide) (by decide) (fun _ _ => rfl)
      (by decide) 3 1 0 1 []⟩

/-! ## The dynamic scheduler: the initial batch -/

theorem batch_run_states {α β : Type} (api : Api α β) (sz : Nat) (arrival : Nat → Nat) :
    ∀ k, k ≤ api.work_chunks.length → k ≤ sz - 1 →
      (run2 api sz arrival k).pc = Pc2.batch (k + 1) ∧
      (run2 api sz arrival k).current_work_chunk = k ∧
      (run2 api sz arrival k).num_results_received = 0 ∧
      (run2 api sz arrival k).result_array = [] ∧
      (run2 api sz arrival k).sent
        = (List.range k).map (fun c => Sent.mk (c + 1) api.WORK_TAG c) := by
  intro k
  induction k with
  | zero => intro _ _; simp [run2, init2]
  | succ k ih =>
    intro hN hW
    obtain ⟨h1, h2, h3, h4, h5⟩ := ih (by omega) (by omega)
    simp only [run2]
    generalize run2 api sz arrival k = s at h1 h2 h3 h4 h5
    obtain ⟨pc, cur, recvd, ra, nm, sent, pending⟩ := s
    simp only at h1 h2 h3 h4 h5
    subst h1 h2 h3 h4 h5
    have hlt : cur < api.work_chunks.length := by omega
    simp only [step2]
    rw [if_pos (by omega), List.getElem?_eq_getElem hlt]
    simp [send_work_2, List.range_succ]

theorem step2_wait_keeps_sent {α β : Type} (api : Api α β) (sz choice : Nat) (s : Master2 β)
    (hpc : s.pc = Pc2.wait) : (step2 api sz choice s).sent = s.sent := by
  obtain ⟨pc, cur, recvd, ra, nm, sent, pending⟩ := s
  simp only at hpc
  subst hpc
  simp only [step2]
  split
  · split <;> rfl
  · split <;> rfl

/-- C11: the initial batch of the master of `MW_Run_2`, for every pool of `N` chunks, every
communicator size `sz` (`W = sz - 1` workers) and every order of arrival.  There is a step `T`
at which the master reaches the head of the collection loop for the first time; up to then it
has been in the `for` loop of line 99 and has received no result.  At `T` it has sent exactly
`min N W` work messages, the `k`-th (from 0) being chunk `k` for worker `k + 1`,
`current_work_chunk` is `min N W`, and the step it takes at `T` sends nothing. -/
theorem MW_Run_2_initial_batch {α β : Type} (api : Api α β) (sz : Nat)
    (arrival : Nat → Nat) :
    ∃ T, (run2 api sz arrival T).pc = Pc2.wait ∧
      (∀ u, u < T → ∃ p, (run2 api sz arrival u).pc = Pc2.batch p) ∧
      (∀ u, u ≤ T → (run2 api sz arrival u).num_results_received = 0) ∧
      (run2 api sz arrival T).result_array = [] ∧
      (run2 api sz arrival T).sent
        = (List.range (min api.work_chunks.length (sz - 1))).map
            (fun k => Sent.mk (k + 1) api.WORK_TAG k) ∧
      (run2 api sz arrival T).sent.length = min api.work_chunks.length (sz - 1) ∧
      (run2 api sz arrival T).current_work_chunk = min api.work_chunks.length (sz - 1) ∧
      (run2 api sz arrival (T + 1)).sent = (run2 api sz arrival T).sent := by
  have hrecv : ∀ u p, (run2 api sz arrival u).pc = Pc2.batch p →
      (run2 api sz arrival u).num_results_received = 0 := by
    intro u p hpc
    have h := (inv2_run api sz arrival u).2
    simp only [PcOk2, hpc] at h
    exact h.2.1
  by_cases hNW : sz - 1 ≤ api.work_chunks.length
  · -- every worker gets a chunk: `W` sends, then the loop condition fails
    have hmin : min api.work_chunks.length (sz - 1) = sz - 1 := Nat.min_eq_right hNW
    obtain ⟨h1, h2, h3, h4, h5⟩ := batch_run_states api sz arrival (sz - 1) hNW (le_refl _)
    have hstep : (run2 api sz arrival (sz - 1 + 1)).pc = Pc2.wait ∧
        (run2 api sz arrival (sz - 1 + 1)).current_work_chunk = sz - 1 ∧
        (run2 api sz arrival (sz - 1 + 1)).num_results_received = 0 ∧
        (run2 api sz arrival (sz - 1 + 1)).result_array = [] ∧
        (run2 api sz arrival (sz - 1 + 1)).sent
          = (List.range (sz - 1)).map (fun c => Sent.mk (c + 1) api.WORK_TAG c) := by
      simp only [run2]
      generalize run2 api sz arrival (sz - 1) = s at h1 h2 h3 h4 h5
      obtain ⟨pc, cur, recvd, ra, nm, sent, pending⟩ := s
      simp only at h1 h2 h3 h4 h5
      subst h1 h2 h3 h4 h5
      simp only [step2]
      rw [if_neg (by omega)]
      exact ⟨rfl, rfl, rfl, rfl, rfl⟩
    obtain ⟨g1, g2, g3, g4, g5⟩ := hstep
    have hpre : ∀ u, u < sz - 1 + 1 → ∃ p, (run2 api sz arrival u).pc = Pc2.batch p := by
      intro u hu
      exact ⟨u + 1, (batch_run_states api sz arrival u (by omega) (by omega)).1⟩
    refine ⟨sz - 1 + 1, g1, hpre, ?_, g4, ?_, ?_, ?_, ?_⟩
    · intro u hu
      rcases Nat.lt_or_ge u (sz - 1 + 1) with hlt | hge
      · obtain ⟨p, hp⟩ := hpre u hlt
        exact hrecv u p hp
      · have : u = sz - 1 + 1 := by omega
        rw [this]; exact g3
    · rw [hmin]; exact g5
    · rw [g5, hmin]; simp
    · rw [hmin]; exact g2
    · exact step2_wait_keeps_sent api sz _ _ g1
  · -- the pool runs out first: `N` sends, then the `else` branch, then the loop condition fails
    have hlt : api.work_chunks.length < sz - 1 := not_le.mp hNW
    have hmin : min api.work_chunks.length (sz - 1) = api.work_chunks.length :=
      Nat.min_eq_left (by omega)
    obtain ⟨h1, h2, h3, h4, h5⟩ :=
      batch_run_states api sz arrival api.work_chunks.length (le_refl _) (by omega)
    have hstep1 : (run2 api sz arrival (api.work_chunks.length + 1)).pc = Pc2.batch (sz + 1) ∧
        (run2 api sz arrival (api.work_chunks.length + 1)).current_work_chunk
          = api.work_chunks.length ∧
        (run2 api sz arrival (api.work_chunks.length + 1)).num_results_received = 0 ∧
        (run2 api sz arrival (api.work_chunks.length + 1)).result_array = [] ∧
        (run2 api sz arrival (api.work_chunks.length + 1)).sent
          = (List.range api.work_chunks.length).map
              (fun c => Sent.mk (c + 1) api.WORK_TAG c) := by
      simp only [run2]
      generalize run2 api sz arrival api.work_chunks.length = s at h1 h2 h3 h4 h5
      obtain ⟨pc, cur, recvd, ra, nm, sent, pending⟩ := s
      simp only at h1 h2 h3 h4 h5
      subst h1 h3 h4 h5
      simp only [step2]
      rw [if_pos (by omega), h2, List.getElem?_eq_none (le_refl _)]
      exact ⟨rfl, rfl, rfl, rfl, rfl⟩
    obtain ⟨f1, f2, f3, f4, f5⟩ := hstep1
    have hstep2 : (run2 api sz arrival (api.work_chunks.length + 1 + 1)).pc = Pc2.wait ∧
        (run2 api sz arrival (api.work_chunks.length + 1 + 1)).current_work_chunk
          = api.work_chunks.length ∧
        (run2 api sz arrival (api.work_chunks.length + 1 + 1)).num_results_received = 0 ∧
        (run2 api sz arrival (api.work_chunks.length + 1 + 1)).result_array = [] ∧
        (run2 api sz arrival (api.work_chunks.length + 1 + 1)).sent
          = (List.range api.work_chunks.length).map
              (fun c => Sent.mk (c + 1) api.WORK_TAG c) := by
      simp only [run2] at f1 f2 f3 f4 f5 ⊢
      generalize step2 api sz (arrival api.work_chunks.length)
        (run2 api sz arrival api.work_chunks.length) = s at f1 f2 f3 f4 f5
      obtain ⟨pc, cur, recvd, ra, nm, sent, pending⟩ := s
      simp only at f1 f2 f3 f4 f5
      subst f1 f3 f4 f5
      simp only [step2]
      rw [if_neg (by omega)]
      exact ⟨rfl, f2, rfl, rfl, rfl⟩
    obtain ⟨g1, g2, g3, g4, g5⟩ := hstep2
    have hpre : ∀ u, u < api.work_chunks.length + 1 + 1 →
        ∃ p, (run2 api sz arrival u).pc = Pc2.batch p := by
      intro u hu
      rcases Nat.lt_or_ge u (api.work_chunks.length + 1) with hlt1 | hge
      · exact ⟨u + 1, (batch_run_states api sz arrival u (by omega) (by omega)).1⟩
      · have : u = api.work_chunks.length + 1 := by omega
        rw [this]; exact ⟨sz + 1, f1⟩
    refine ⟨api.work_chunks.length + 1 + 1, g1, hpre, ?_, g4, ?_, ?_, ?_, ?_⟩
    · intro u hu
      rcases Nat.lt_or_ge u (api.work_chunks.length + 1 + 1) with hlt1 | hge
      · obtain ⟨p, hp⟩ := hpre u hlt1
        exact hrecv u p hp
      · have : u = api.work_chunks.length + 1 + 1 := by omega
        rw [this]; exact g3
    · rw [hmin]; exact g5
    · rw [g5, hmin]; simp
    · rw [hmin]; exact g2
    · exact step2_wait_keeps_sent api sz _ _ g1

end MW
